import Mathlib

/-!
Verification of the `sapphire-config` configuration parser
(`src/sapphire_config/parser.py` and `src/sapphire_config/component.py`).

The Python code is shallowly embedded: strings are `List Char`, the
`configparser` store is an ordered association table (Python `dict`
preserves insertion order), exceptions are an explicit error type, and
the external leaf parsers (`pytimeparse`, `humanfriendly`,
`dateutil.parser`) are abstract function parameters, as the spec treats
them as external collaborators.  Machine floats do not occur on the
verified paths (all claim inputs are integral seconds), so durations and
timestamps are modelled as integer seconds.
-/

set_option maxRecDepth 4096

/-- Python strings, modelled as lists of characters. -/
abbrev Str := List Char

/-- Shorthand: turn a Lean string literal into the `Str` model. -/
def cl (s : String) : Str := s.toList

/-- `str.lower()` (ASCII case folding; the claims only use ASCII keys).
`configparser.RawConfigParser.optionxform` is exactly `str.lower`. -/
def toLowerL (s : Str) : Str := s.map Char.toLower

/-- `p` is a prefix of `s` (Python `s.startswith(p)` when applied to the
whole string). -/
def isPfx : Str → Str → Bool
  | [], _ => true
  | _ :: _, [] => false
  | p :: ps, c :: cs => p == c && isPfx ps cs

/-- Python's substring test `pat in s`. -/
def containsSub : Str → Str → Bool
  | [], pat => isPfx pat []
  | c :: t, pat => isPfx pat (c :: t) || containsSub t pat

/-- Python `s.replace(pat, rep)`, fuel-based so that the kernel can
evaluate it: replace every non-overlapping occurrence of `pat`, scanning
left to right.  Every step consumes at least one character of `s`, so
`fuel = s.length` (see `replaceList`) always completes the scan, and at
fuel 0 the remaining string is empty.  (An empty pattern never arises in
the embedded code paths; for it this model returns `s` unchanged.) -/
def replaceF : Nat → Str → Str → Str → Str
  | 0, s, _, _ => s
  | f + 1, s, pat, rep =>
    if isPfx pat s && !pat.isEmpty then
      rep ++ replaceF f (s.drop pat.length) pat rep
    else
      match s with
      | [] => []
      | c :: t => c :: replaceF f t pat rep

/-- Python `s.replace(pat, rep)`. -/
def replaceList (s pat rep : Str) : Str := replaceF s.length s pat rep

/-- Characters allowed inside an interpolation placeholder body:
the regex `%\((?:[^()]+)\)s` forbids only parentheses. -/
def isBodyChar (c : Char) : Bool := c ≠ '(' && c ≠ ')'

/-- The scanner of `NestedInterpolation._KEYCRE.findall`: returns the full
matched placeholder substrings `%(body)s`, leftmost, non-overlapping
(the regex body `[^()]+` is one or more non-parenthesis characters).
`fuel` decreases on every one-character advance; calling with
`fuel = s.length` (see `findKeys`) always completes the scan, because each
step consumes at least one character. -/
def findKeysF : Nat → Str → List Str
  | 0, _ => []
  | _ + 1, [] => []
  | f + 1, c :: t =>
    if c = '%' then
      match t with
      | [] => []
      | c2 :: t2 =>
        if c2 = '(' then
          let body := t2.takeWhile isBodyChar
          match t2.dropWhile isBodyChar with
          | ')' :: 's' :: tail =>
            if body.isEmpty then findKeysF f t
            else (('%' :: '(' :: body) ++ ')' :: 's' :: []) :: findKeysF f tail
          | _ => findKeysF f t
        else findKeysF f t
    else findKeysF f t

/-- `NestedInterpolation._KEYCRE.findall(value)`. -/
def findKeys (s : Str) : List Str := findKeysF s.length s

/-- Errors raised by the embedded code: `NoSectionError`, `NoOptionError`,
`InterpolationMissingOptionError`, `InterpolationDepthError`, plus the
`ValueError`/`TypeError` raised by converters.  (Error message payloads
beyond these discriminants are not modelled.) -/
inductive PErr where
  | noSection (sect : Str)
  | noOption (sect opt : Str)
  | interpMissing (key : Str)
  | interpDepth
  | valueError
  | typeError
deriving DecidableEq

/-- Result of an embedded Python call: a value or a raised exception. -/
inductive Res (α : Type) where
  | ok (a : α)
  | err (e : PErr)
deriving DecidableEq

instance : Monad Res where
  pure := Res.ok
  bind x f := match x with
    | .ok a => f a
    | .err e => .err e

/-- The slice `key[2:-2]` of a full placeholder match `%(body)s`. -/
def keyBody (key : Str) : Str := ((key.drop 2).dropLast).dropLast

/-- The `for key in keys` body of `NestedInterpolation.before_get`:
look up each placeholder body (after `optionxform`, i.e. lowercasing) in
the merged defaults `d`, raising `InterpolationMissingOptionError` on the
first absent target, and substitute every occurrence of the full match. -/
def replaceKeys (d : Str → Option Str) : Str → List Str → Res Str
  | v, [] => .ok v
  | v, key :: rest =>
    match d (toLowerL (keyBody key)) with
    | none => .err (.interpMissing key)
    | some rv => replaceKeys d (replaceList v key rv) rest

/-- The `while depth` pass loop of `before_get`: up to `depth` passes of
find-all-placeholders / substitute, stopping early when no placeholder
pattern matches. -/
def interpLoop (d : Str → Option Str) : Nat → Str → Res Str
  | 0, v => .ok v
  | n + 1, v =>
    let keys := findKeys v
    if keys.isEmpty then .ok v
    else match replaceKeys d v keys with
      | .err e => .err e
      | .ok v' => interpLoop d n v'

/-- `configparser.MAX_INTERPOLATION_DEPTH`. -/
def MAX_INTERP_DEPTH : Nat := 10

/-- `NestedInterpolation.before_get(parser, section, option, value, defaults)`
modelled as a function of the merged defaults lookup `d` and the raw
`value`: run the bounded pass loop, then fail with
`InterpolationDepthError` if `"%("` is still present, and finally
unescape `"%%"` to `"%"`. -/
def before_get (d : Str → Option Str) (value : Str) : Res Str :=
  match interpLoop d MAX_INTERP_DEPTH value with
  | .err e => .err e
  | .ok u =>
    if containsSub u (cl "%(") then .err .interpDepth
    else .ok (replaceList u (cl "%%") (cl "%"))

/-! ## Python string helpers used by the converters -/
/-- The characters Python `str.split()`/`str.strip()` treat as whitespace
(ASCII subset; the config values in the claims only contain spaces). -/
def isSpace (c : Char) : Bool :=
  c == ' ' || c == '\t' || c == '\n' || c == '\r' || c == '\x0b' || c == '\x0c'

/-- Python `s.split()` (no separator): split on runs of whitespace,
discarding empty pieces.  Fuel-based; each step consumes at least one
character, so `fuel = s.length` (see `pySplitWs`) completes the scan. -/
def splitWsF : Nat → Str → List Str
  | 0, _ => []
  | _ + 1, [] => []
  | f + 1, c :: t =>
    if isSpace c then splitWsF f t
    else (c :: t.takeWhile (fun x => !isSpace x)) ::
      splitWsF f (t.dropWhile (fun x => !isSpace x))

/-- Python `s.split()` with no separator. -/
def pySplitWs (s : Str) : List Str := splitWsF s.length s

/-- Python `s.split(sep)` with an explicit non-empty separator: split at
every occurrence (adjacent separators yield empty pieces, and the empty
string yields `[""]`).  `cur` is the current piece, reversed. -/
def splitSepF : Nat → Str → Str → Str → List Str
  | 0, cur, _, _ => [cur.reverse]
  | f + 1, cur, sep, s =>
    if isPfx sep s && !sep.isEmpty then
      cur.reverse :: splitSepF f [] sep (s.drop sep.length)
    else
      match s with
      | [] => [cur.reverse]
      | c :: t => splitSepF f (c :: cur) sep t

/-- Python `s.split(sep)` with an explicit separator. -/
def pySplitSep (s sep : Str) : List Str := splitSepF s.length [] sep s

/-- Python `s.strip()`. -/
def pyStrip (s : Str) : Str :=
  ((s.dropWhile isSpace).reverse.dropWhile isSpace).reverse

/-- A character's value as a digit in bases up to 36, per Python's `int`. -/
def hexVal (c : Char) : Option Nat :=
  if '0' ≤ c ∧ c ≤ '9' then some (c.toNat - '0'.toNat)
  else if 'a' ≤ c ∧ c ≤ 'z' then some (c.toNat - 'a'.toNat + 10)
  else if 'A' ≤ c ∧ c ≤ 'Z' then some (c.toNat - 'A'.toNat + 10)
  else none

/-- Digit-string accumulator for `digitsVal`. -/
def digitsValGo (b : Nat) (acc : Nat) : Str → Option Nat
  | [] => some acc
  | c :: t =>
    match hexVal c with
    | some d => if d < b then digitsValGo b (acc * b + d) t else none
    | none => none

/-- Parse a non-empty run of base-`b` digits (the digit part of Python
`int(s, b)`; numeric-literal underscores are not modelled — they never
occur in the repository or the claims). -/
def digitsVal (b : Nat) (l : Str) : Option Nat :=
  if l.isEmpty then none else digitsValGo b 0 l

/-- The unsigned part of Python `int(s, base)`: handle the `0x`/`0o`/`0b`
prefixes (mandatory base inference for base 0, optional for bases
16/8/2), the base-0 rule that a leading zero is only legal when the whole
string is zeros, and require `0 or 2 ≤ base ≤ 36`. -/
def pyIntMag (base : Nat) (l : Str) : Option Nat :=
  match base, l with
  | 0, '0' :: c :: r =>
    if c = 'x' ∨ c = 'X' then digitsVal 16 r
    else if c = 'o' ∨ c = 'O' then digitsVal 8 r
    else if c = 'b' ∨ c = 'B' then digitsVal 2 r
    else if (c :: r).all (· = '0') then some 0 else none
  | 0, l => digitsVal 10 l
  | 16, '0' :: c :: r =>
    if c = 'x' ∨ c = 'X' then digitsVal 16 r else digitsVal 16 ('0' :: c :: r)
  | 8, '0' :: c :: r =>
    if c = 'o' ∨ c = 'O' then digitsVal 8 r else digitsVal 8 ('0' :: c :: r)
  | 2, '0' :: c :: r =>
    if c = 'b' ∨ c = 'B' then digitsVal 2 r else digitsVal 2 ('0' :: c :: r)
  | b, l => if 2 ≤ b ∧ b ≤ 36 then digitsVal b l else none

/-- Python `int(s, base)`: strip whitespace, take an optional sign, then
parse the unsigned part.  `none` models `ValueError`. -/
def pyInt (s : Str) (base : Nat) : Option Int :=
  match pyStrip s with
  | '+' :: r => (pyIntMag base r).map Int.ofNat
  | '-' :: r => (pyIntMag base r).map (fun n => -(n : Int))
  | t => (pyIntMag base t).map Int.ofNat

/-- Decimal digits of `n`, least significant first (fuel-based mirror of
`Nat.digits 10`; `fuel = n` always suffices since `n / 10 < n`). -/
def natReprAux : Nat → Nat → Str
  | 0, _ => []
  | f + 1, n => if n = 0 then [] else Nat.digitChar (n % 10) :: natReprAux f (n / 10)

/-- Python `str(n)` for a natural number. -/
def natRepr (n : Nat) : Str := if n = 0 then cl "0" else (natReprAux n n).reverse

/-- Python `str(i)` for an integer. -/
def intRepr (i : Int) : Str :=
  if i < 0 then '-' :: natRepr i.natAbs else natRepr i.toNat

/-! ## The Python value universe reaching the accessor layer -/
/-- The dynamically-typed values that flow through the accessors: store
values and interpolation results are `str`; fallbacks may be `None` or
any typed value.  Durations and datetimes are integer seconds (the claims
only use integral values; floats are not modelled). -/
inductive PyVal where
  | none
  | str (s : Str)
  | int (n : Int)
  | bool (b : Bool)
  | timedelta (secs : Int)
  | datetime (epoch : Int)
  | path (p : Str)
  | list (xs : List Str)
  | timespan (args : List (Str × Int))
deriving DecidableEq

/-- `str(timedelta(seconds=n))` for `0 ≤ n < 86400` (`"H:MM:SS"`).  The
day-carrying and negative formats are not modelled; no claim path calls
`str()` on a timedelta. -/
def tdRepr (n : Int) : Str :=
  if 0 ≤ n then
    natRepr (n.toNat / 3600) ++ ':' ::
      ((if n.toNat % 3600 / 60 < 10 then '0' :: natRepr (n.toNat % 3600 / 60)
        else natRepr (n.toNat % 3600 / 60)) ++ ':' ::
        (if n.toNat % 60 < 10 then '0' :: natRepr (n.toNat % 60)
         else natRepr (n.toNat % 60)))
  else cl "<timedelta>"

/-- Python `str(value)`.  The `list`/`timespan` cases are never reached by
`str()` in the embedded code paths; they carry a placeholder rendering. -/
def pyStr : PyVal → Str
  | .none => cl "None"
  | .str s => s
  | .int n => intRepr n
  | .bool b => if b then cl "True" else cl "False"
  | .timedelta n => tdRepr n
  | .datetime n => intRepr n
  | .path p => p
  | .list _ => cl "<list>"
  | .timespan _ => cl "<timespan>"

/-! ## The configparser store -/
/-- An insertion-ordered option table (Python `dict`), keys unique. -/
abbrev Assoc := List (Str × Str)

/-- Dictionary lookup. -/
def lookupA : Assoc → Str → Option Str
  | [], _ => Option.none
  | (k, v) :: t, key => if k = key then some v else lookupA t key

/-- Python `d[k] = v`: overwrite in place, preserving insertion order, or
append a new key at the end. -/
def dictUpdate (d : Assoc) (k v : Str) : Assoc :=
  if (lookupA d k).isSome then
    d.map (fun kv => if kv.1 = k then (k, v) else kv)
  else d ++ [(k, v)]

/-- The parser store: the `DEFAULT` section plus the named sections.
(`configparser` keeps option keys lowercased via `optionxform`; writes in
this model lowercase keys, see `pSet`.) -/
structure Parser where
  defaults : Assoc
  sections : List (Str × Assoc)
deriving DecidableEq

/-- Look up a section table by name. -/
def findSect : List (Str × Assoc) → Str → Option Assoc
  | [], _ => Option.none
  | (n, sd) :: t, name => if n = name then some sd else findSect t name

/-- `RawConfigParser._unify_values`: a section-local key shadows the
`DEFAULT` section (the `vars` chain-map level is always empty in the
embedded code). -/
def sectGet (p : Parser) (sd : Assoc) (key : Str) : Option Str :=
  match lookupA sd key with
  | some v => some v
  | none => lookupA p.defaults key

/-- `RawConfigParser.set(section, option, value)` (plus
`SectionProxy.__setitem__`): lowercase the option key and write to the
`DEFAULT` table or the named section.  A missing section leaves the store
unchanged (the raising path is never reached in the embedded code). -/
def pSet (p : Parser) (sectName key value : Str) : Parser :=
  if sectName = cl "DEFAULT" then
    { p with defaults := dictUpdate p.defaults (toLowerL key) value }
  else
    let upd := fun (s : Str × Assoc) =>
      if s.1 = sectName then (s.1, dictUpdate s.2 (toLowerL key) value) else s
    { p with sections := p.sections.map upd }

/-- The `fallback` argument: either the `_UNSET` "required" sentinel or a
concrete Python value (`None` included). -/
inductive Fb where
  | unset
  | py (v : PyVal)
deriving DecidableEq

/-- `RawConfigParser.get(section, option, raw=raw, fallback=fallback)`
with the `NestedInterpolation` interpolation: missing section/option
yields the fallback (or raises on `_UNSET`); a present value is returned
raw or interpolated against the section's merged lookup. -/
def cpGet (p : Parser) (sectName opt : Str) (raw : Bool) (fb : Fb) : Res PyVal :=
  match findSect p.sections sectName with
  | Option.none =>
    match fb with
    | .unset => .err (.noSection sectName)
    | .py v => .ok v
  | some sd =>
    let o := toLowerL opt
    match sectGet p sd o with
    | Option.none =>
      match fb with
      | .unset => .err (.noOption sectName o)
      | .py v => .ok v
    | some value =>
      if raw then .ok (.str value)
      else
        match before_get (sectGet p sd) value with
        | .ok w => .ok (.str w)
        | .err e => .err e

/-- `Parser.get`: the sapphire override that defaults `fallback` to
`None` — callers pass the fallback explicitly here. -/
def pGet (p : Parser) (sectName opt : Str) (fb : Fb) : Res PyVal :=
  cpGet p sectName opt false fb

/-! ## Converters and typed accessors -/
/-- `as_boolean`: `str(value).lower()` against
`RawConfigParser.BOOLEAN_STATES`; anything else raises `ValueError`. -/
def as_boolean (v : PyVal) : Res Bool :=
  let s := toLowerL (pyStr v)
  if s = cl "1" ∨ s = cl "yes" ∨ s = cl "true" ∨ s = cl "on" then .ok true
  else if s = cl "0" ∨ s = cl "no" ∨ s = cl "false" ∨ s = cl "off" then .ok false
  else .err .valueError

/-- `as_list(value, sep, conv)` with the default element converter
(`str`, the identity on the stripped pieces): a list passes through,
`None` gives `[]`, a string is split and each piece stripped.  Any other
type raises (`AttributeError` in Python; collapsed to `typeError`). -/
def as_list (v : PyVal) (sep : Option Str) : Res (List Str) :=
  match v with
  | .list xs => .ok xs
  | .none => .ok []
  | .str s =>
    .ok ((match sep with
      | Option.none => pySplitWs s
      | some sp => pySplitSep s sp).map pyStrip)
  | _ => .err .typeError

/-- `as_set(value, sep, conv)` with the default converter.  (A set-typed
fallback — the `isinstance(value, set)` branch — is not representable in
`PyVal` and never occurs in the claims.) -/
def as_set (v : PyVal) (sep : Option Str) : Res (Finset Str) :=
  match v with
  | .none => .ok ∅
  | .str s =>
    .ok (((match sep with
      | Option.none => pySplitWs s
      | some sp => pySplitSep s sp).map pyStrip).toFinset)
  | _ => .err .typeError

/-- `as_timedelta(value)`: a timedelta or `None` passes through, a number
is seconds, a string goes through `pytimeparse.parse` (the abstract
external parser `tp`; an unparseable string makes
`timedelta(seconds=None)` raise `TypeError`). -/
def as_timedelta (tp : Str → Option Int) : PyVal → Res (Option Int)
  | .timedelta n => .ok (some n)
  | .none => .ok Option.none
  | .int n => .ok (some n)
  | .str s =>
    match tp s with
    | some n => .ok (some n)
    | Option.none => .err .typeError
  | _ => .err .typeError

/-- `Parser.get_int(section, option, base=base, fallback=fallback)`:
fetch with the plain `get` (so an absent option yields the fallback
value itself), return `None` for `None`, otherwise convert through
`int(str(value), base=base)`. -/
def get_int (p : Parser) (sectName opt : Str) (base : Nat) (fb : Fb) : Res (Option Int) := do
  let v ← pGet p sectName opt fb
  match v with
  | .none => return Option.none
  | v =>
    match pyInt (pyStr v) base with
    | some n => return (some n)
    | Option.none => .err .valueError

/-- `Parser.get_boolean`. -/
def get_boolean (p : Parser) (sectName opt : Str) (fb : Fb) : Res (Option Bool) := do
  let v ← pGet p sectName opt fb
  match v with
  | .none => return Option.none
  | v => do
    let b ← as_boolean v
    return (some b)

/-- `Parser.get_list`. -/
def get_list (p : Parser) (sectName opt : Str) (sep : Option Str) (fb : Fb) :
    Res (List Str) := do
  let v ← pGet p sectName opt fb
  as_list v sep

/-- `Parser.get_set`. -/
def get_set (p : Parser) (sectName opt : Str) (sep : Option Str) (fb : Fb) :
    Res (Finset Str) := do
  let v ← pGet p sectName opt fb
  as_set v sep

/-- `Parser.get_timedelta`. -/
def get_timedelta (tp : Str → Option Int) (p : Parser) (sectName opt : Str) (fb : Fb) :
    Res (Option Int) := do
  let v ← pGet p sectName opt fb
  as_timedelta tp v

/-- The fallback branch of `Parser._get_conv` (its `except` clause): the
`_UNSET` sentinel re-raises, `None` passes through, a string fallback is
converted like a present value, any other value is returned as-is. -/
def convFb (conv : PyVal → Res PyVal) (fb : Fb) (e : PErr) : Res PyVal :=
  match fb with
  | .unset => .err e
  | .py .none => .ok .none
  | .py (.str s) => conv (.str s)
  | .py v => .ok v

/-- `Parser._get_conv` (the engine behind the converter-generated
accessors `get_bytes`/`get_datetime`/`get_path`/`get_timespan`): demand
the option with `_UNSET`, convert a present value, and on
`NoSectionError`/`NoOptionError` only, apply the fallback rules.
Interpolation errors propagate uncaught. -/
def get_conv (conv : PyVal → Res PyVal) (p : Parser) (sectName opt : Str) (fb : Fb) :
    Res PyVal :=
  match cpGet p sectName opt false .unset with
  | .ok .none => .ok .none
  | .ok v => conv v
  | .err (PErr.noSection s) => convFb conv fb (.noSection s)
  | .err (PErr.noOption s o) => convFb conv fb (.noOption s o)
  | .err e => .err e

/-- `as_path`: wrap the string as a path (`pathlib.Path`); a path passes
through, other types raise `TypeError`. -/
def as_path : PyVal → Res PyVal
  | .str s => .ok (.path s)
  | .path q => .ok (.path q)
  | _ => .err .typeError

/-- `as_bytes`: `humanfriendly.parse_size(str(value))`, with the external
size parser abstract. -/
def as_bytes (psize : Str → Option Int) (v : PyVal) : Res PyVal :=
  match psize (pyStr v) with
  | some n => .ok (.int n)
  | Option.none => .err .valueError

/-- `as_datetime`: `dateutil.parser.parse(value)`, with the external
date parser abstract (timestamps as integer seconds). -/
def as_datetime (pdt : Str → Option Int) : PyVal → Res PyVal
  | .str s =>
    match pdt s with
    | some t => .ok (.datetime t)
    | Option.none => .err .valueError
  | _ => .err .typeError

/-- Insertion-ordered update for the `as_timespan` argument dict. -/
def dictUpdateI (d : List (Str × Int)) (k : Str) (v : Int) : List (Str × Int) :=
  if (d.map (·.1)).contains k then
    d.map (fun kv => if kv.1 = k then (k, v) else kv)
  else d ++ [(k, v)]

/-- The field loop of `as_timespan`: each comma-separated piece must be
`key=value` with an integer value. -/
def tsFields : List Str → List (Str × Int) → Res (List (Str × Int))
  | [], acc => .ok acc
  | arg :: rest, acc =>
    match pySplitSep arg (cl "=") with
    | [k, vv] =>
      match pyInt vv 10 with
      | some n => tsFields rest (dictUpdateI acc (pyStrip k) n)
      | Option.none => .err .valueError
    | _ => .err .valueError

/-- `as_timespan`: a string containing `=` is a comma-separated
`unit=integer` field list; otherwise it is a duration whose seconds
become the `seconds` field.  (`relativedelta`'s carry normalization is
not modelled; no claim compares timespan values.) -/
def as_timespan (tp : Str → Option Int) : PyVal → Res PyVal
  | .str s =>
    if containsSub s (cl "=") then do
      let args ← tsFields (pySplitSep s (cl ",")) []
      return (.timespan args)
    else do
      let td ← as_timedelta tp (.str s)
      match td with
      | some n => return (.timespan [(cl "seconds", n)])
      | Option.none => .err .typeError
  | _ => .err .typeError

/-- `Parser.get_path` (generated by the `_path` converter). -/
def get_path (p : Parser) (sectName opt : Str) (fb : Fb) : Res PyVal :=
  get_conv as_path p sectName opt fb

/-- `Parser.get_bytes` (generated by the `_bytes` converter). -/
def get_bytes (psize : Str → Option Int) (p : Parser) (sectName opt : Str) (fb : Fb) :
    Res PyVal :=
  get_conv (as_bytes psize) p sectName opt fb

/-- `Parser.get_datetime` (generated by the `_datetime` converter). -/
def get_datetime (pdt : Str → Option Int) (p : Parser) (sectName opt : Str) (fb : Fb) :
    Res PyVal :=
  get_conv (as_datetime pdt) p sectName opt fb

/-- `Parser.get_timespan` (generated by the `_timespan` converter). -/
def get_timespan (tp : Str → Option Int) (p : Parser) (sectName opt : Str) (fb : Fb) :
    Res PyVal :=
  get_conv (as_timespan tp) p sectName opt fb

/-! ## Rate -/
/-- `Rate`: period and offset in integer seconds (`Rate.__init__`
converts numbers to timedeltas; equality is structural over all four
fields, as `Rate.__eq__`). -/
structure Rate where
  period : Int
  sync : Bool
  offset : Int
  at_start : Bool
deriving DecidableEq

/-- `Rate.nexttime(curtime)`: seconds until the next deadline.  `t` is
`curtime` in epoch seconds; `(curtime - offset).timestamp()` is
`t - offset`, and Python's `%` with a positive modulus agrees with
`Int.emod`.  (With `period = 0` and `sync` the Python code raises
`ZeroDivisionError`; that degenerate case is outside the claims.) -/
def nexttime (r : Rate) (t : Int) : Int :=
  if r.sync then r.period - (t - r.offset) % r.period else r.period

/-- The `fallback` argument of `get_rate`: a `Rate` or a plain value. -/
inductive RateFb where
  | rate (r : Rate)
  | py (v : PyVal)
deriving DecidableEq

/-- Lift the running `period` value (a timedelta or `None`) back into a
fallback for the next read, as the Python code threads the variable. -/
def tdOpt : Option Int → PyVal
  | some n => .timedelta n
  | Option.none => .none

/-- `Parser.get_rate(section, option, fallback)`: split a `Rate` fallback
into per-field fallbacks, resolve `period` from `option` then
`option.period` (the latter reading falling back to the former's result),
return `None` when the period is unresolved, otherwise resolve
`option.sync`/`option.offset`/`option.at_start` against the fallback
fields and construct the `Rate`.  (`proxy = self[section]` raises on a
missing section; with a boolean/number fallback the `sync`/`offset`/
`at_start` reads never produce Python `None`, so the `getD` defaults are
unreachable.) -/
def get_rate (tp : Str → Option Int) (p : Parser) (sectName opt : Str) (fb : RateFb) :
    Res (Option Rate) :=
  let period0 : PyVal := match fb with | .rate r => .timedelta r.period | .py v => v
  let sync0 : Bool := match fb with | .rate r => r.sync | .py _ => false
  let offset0 : PyVal := match fb with | .rate r => .timedelta r.offset | .py _ => .int 0
  let atstart0 : Bool := match fb with | .rate r => r.at_start | .py _ => false
  match findSect p.sections sectName with
  | Option.none => .err (.noSection sectName)
  | some _ => do
    let p1 ← get_timedelta tp p sectName opt (.py period0)
    let p2 ← get_timedelta tp p sectName (opt ++ cl ".period") (.py (tdOpt p1))
    match p2 with
    | Option.none => return Option.none
    | some per => do
      let sy ← get_boolean p sectName (opt ++ cl ".sync") (.py (.bool sync0))
      let off ← get_timedelta tp p sectName (opt ++ cl ".offset") (.py offset0)
      let ast ← get_boolean p sectName (opt ++ cl ".at_start") (.py (.bool atstart0))
      return (some ⟨per, sy.getD false, off.getD 0, ast.getD false⟩)

/-! ## Component synthesis -/
/-- Iteration order of `for key in parent` over a `SectionProxy`:
`RawConfigParser.options` copies the section table and `update`s it with
the defaults, so section keys come first in insertion order, followed by
the `DEFAULT`-only keys. -/
def optionsList (p : Parser) (sd : Assoc) : List Str :=
  sd.map (·.1) ++ (p.defaults.filter (fun kv => (lookupA sd kv.1).isNone)).map (·.1)

/-- `optionsList` looked up through a section name (empty for a missing
section; unreachable, the callers' sections exist). -/
def optionsOf (p : Parser) (sectName : Str) : List Str :=
  match findSect p.sections sectName with
  | some sd => optionsList p sd
  | Option.none => []

/-- `parent.get(key, raw=True)` on a section proxy, for a key known to be
in the proxy's option list (the defaults for absent keys are
unreachable). -/
def proxyGetRaw (par : Parser) (sectName key : Str) : Str :=
  match findSect par.sections sectName with
  | some sd => (sectGet par sd key).getD []
  | Option.none => []

/-- `Component._get_values(parent, prefix)`: collect, in iteration order,
every parent key starting with `prefix` under
`key.replace(prefix, "")` — note Python's `replace` removes every
occurrence of the prefix substring, not only the leading one — mapped to
the raw (uninterpolated) parent value. -/
def getValuesP (par : Parser) (sectName pfx : Str) : Assoc :=
  (optionsOf par sectName).foldl
    (fun acc key =>
      if isPfx pfx key then
        dictUpdate acc (replaceList key pfx []) (proxyGetRaw par sectName key)
      else acc) []

/-- `proxy.update(values)`: apply the dict's items in order through
`parser.set`. -/
def updAll (cfg : Parser) (sectName : Str) (vals : Assoc) : Parser :=
  vals.foldl (fun c kv => pSet c sectName kv.1 kv.2) cfg

/-- The body of the `for key in parent` copy loop of `_create_proxy`:
every key outside the component prefix is written, raw, to the private
parser's `DEFAULT` section; the parent is only read. -/
def copyStep (parentSect dotPfx : Str) (pc : Parser × Parser) (key : Str) :
    Parser × Parser :=
  if !(isPfx dotPfx key) then
    (pc.1, pSet pc.2 (cl "DEFAULT") key (proxyGetRaw pc.1 parentSect key))
  else pc

/-- The body of the `for mixin in mixins` loop of `_create_proxy`: merge
the mixin's stripped key set into the private section. -/
def mixinStep (parentSect csect : Str) (pc : Parser × Parser) (m : Str) :
    Parser × Parser :=
  (pc.1, updAll pc.2 csect (getValuesP pc.1 parentSect (m ++ ['.'])))

/-- `Component._create_proxy(prefix, name, parent)`, with the parent
parser threaded through every step (first component of the state pair) so
that the synthesis' effect on the parent is part of the model: build a
fresh `Parser`, add the `{prefix}.{name}` section, copy the
non-component parent keys into its `DEFAULT` section, layer the
wildcard-default, named-default, mixin and own-namespace values, and set
the two meta keys.  Returns `(parent after synthesis, private parser)`. -/
def createProxy (pfx name parentSect : Str) (parent : Parser) : Res (Parser × Parser) :=
  let csect := pfx ++ '.' :: name
  let dotPfx := pfx ++ ['.']
  match findSect parent.sections parentSect with
  | Option.none => .err (.noSection parentSect)
  | some _ => do
    let cfg0 : Parser := ⟨[], [(csect, [])]⟩
    let pc1 := (optionsOf parent parentSect).foldl (copyStep parentSect dotPfx)
      (parent, cfg0)
    let pc2 := (pc1.1, updAll pc1.2 csect (getValuesP pc1.1 parentSect (pfx ++ cl ".*.")))
    let pc3 := (pc2.1, updAll pc2.2 csect (getValuesP pc2.1 parentSect (pfx ++ cl ".default.")))
    let m1 ← get_list pc3.1 parentSect (pfx ++ cl ".*.mixin") Option.none (.py .none)
    let m2 ← get_list pc3.1 parentSect (pfx ++ cl ".default.mixin") Option.none (.py (.list m1))
    let m3 ← get_list pc3.1 parentSect (pfx ++ '.' :: name ++ cl ".mixin") Option.none (.py (.list m2))
    let pc4 := m3.foldl (mixinStep parentSect csect) pc3
    let pc5 := (pc4.1, updAll pc4.2 csect (getValuesP pc4.1 parentSect (pfx ++ '.' :: name ++ ['.'])))
    let cfg6 := pSet pc5.2 csect (cl "name") name
    let cfg7 := pSet cfg6 csect pfx name
    return (pc5.1, cfg7)

/-- `Parser.get_components(section, option, factory=...)` with a
`Component`-based factory of fixed prefix `pfx` (as the repository's
`Component` subclasses fix it): read the name list, then build one
private parser per name, threading the parent through each construction.
Returns the `(name, private parser)` pairs and the parent after the
call.  (The Python result is a dict, so a duplicated name would keep only
its last component; the claims do not use duplicate names.) -/
def get_components (pfx : Str) (p : Parser) (sectName opt : Str) :
    Res (List (Str × Parser) × Parser) := do
  let names ← get_list p sectName opt Option.none (.py .none)
  names.foldlM
    (fun (st : List (Str × Parser) × Parser) name => do
      let pc ← createProxy pfx name sectName st.2
      return (st.1 ++ [(name, pc.2)], pc.1)) ([], p)

/-- Reading an option from a component's private store
(`component.config.get(key)`, i.e. `SectionProxy.get` with the default
`None` fallback, interpolated). -/
def privGet (cfg : Parser) (pfx name key : Str) : Res PyVal :=
  pGet cfg (pfx ++ '.' :: name) key (.py .none)

/-! ## Interpolation is the identity on placeholder-free values -/
/-- A value with no percent sign: interpolation leaves it unchanged. -/
def noPct (s : Str) : Prop := ∀ c ∈ s, c ≠ '%'

instance noPct_decidable (s : Str) : Decidable (noPct s) :=
  inferInstanceAs (Decidable (∀ c ∈ s, c ≠ '%'))

/-! ## C1: component layering precedence -/
/-- Parent store: the component's own `key1` is set alongside a mixin
supplying `key1`. -/
def compParOwn : Parser :=
  ⟨[], [(cl "section",
    [(cl "base.mixin.key1", cl "X"), (cl "components", cl "a"),
     (cl "component.a.mixin", cl "base.mixin"), (cl "component.a.key1", cl "Y")])]⟩

/-- Parent store: `key1` comes only from the mixin. -/
def compParMixinOnly : Parser :=
  ⟨[], [(cl "section",
    [(cl "base.mixin.key1", cl "X"), (cl "components", cl "a"),
     (cl "component.a.mixin", cl "base.mixin")])]⟩

/-- Parent store: the wildcard layer also defines `key1`; the mixin must
beat it. -/
def compParWildcard : Parser :=
  ⟨[], [(cl "section",
    [(cl "base.mixin.key1", cl "X"), (cl "component.*.key1", cl "W"),
     (cl "components", cl "a"), (cl "component.a.mixin", cl "base.mixin")])]⟩

/-! ## C2: nested interpolation resolves inside-out -/
/-- The one-section store of the nested-interpolation example. -/
def interpDemoParser : Parser :=
  ⟨[], [(cl "section",
    [(cl "base.name", cl "a"), (cl "opt", cl "name"),
     (cl "path", cl "%(base.%(opt)s)s")])]⟩

/-- The merged lookup of `interpDemoParser`'s section. -/
def interpDemoLookup : Str → Option Str :=
  sectGet interpDemoParser
    [(cl "base.name", cl "a"), (cl "opt", cl "name"), (cl "path", cl "%(base.%(opt)s)s")]

/-! ## C3: cycle and depth detection -/
/-- The placeholder string `%(k)s` for a body `k`. -/
def phKey (k : Str) : Str := '%' :: '(' :: (k ++ ')' :: 's' :: [])

/-- The store of the indirect two-option cycle `a → b → a`. -/
def cycleParser : Parser :=
  ⟨[], [(cl "section", [(cl "a", cl "%(b)s"), (cl "b", cl "%(a)s")])]⟩

/-- A store whose value is a malformed placeholder remnant, with no
definition of `name` at all. -/
def malformedParser : Parser :=
  ⟨[], [(cl "section", [(cl "path", cl "%(name)")])]⟩

/-- A store whose value is an escaped-percent remnant `%%(`. -/
def escapedParser : Parser :=
  ⟨[], [(cl "section", [(cl "path", cl "%%(")])]⟩

/-- A fallback value the `_get_conv` rules convert rather than return
as-is. -/
def isStrOrNone : PyVal → Bool
  | .str _ => true
  | .none => true
  | _ => false

/-- Store with one empty section, used to drive the fallback rules. -/
def c5Par : Parser := ⟨[], [(cl "section", [])]⟩

/-! ## C8: list/set accessors on empty or absent input -/
/-- Store with an empty-valued option, and no `missing` option. -/
def c8Par : Parser := ⟨[], [(cl "section", [(cl "empty", cl "")])]⟩

/-- The store and time parser of the concrete `get_rate` example. -/
def c4Par : Parser := ⟨[], [(cl "section", [(cl "rate", cl "60")])]⟩

/-- The external duration parser instantiated for the witness. -/
def tpC4 : Str → Option Int := fun s => if s = cl "60" then some 60 else Option.none

/-! ## C7: the mixin merge step -/
/-- Parent store whose key repeats the mixin prefix inside the key. -/
def c7Par : Parser := ⟨[], [(cl "section", [(cl "b.b.k1", cl "v")])]⟩

/-- The step function of `_get_values`. -/
def gvStep (par : Parser) (sectName pfx : Str) (acc : Assoc) (key : Str) : Assoc :=
  if isPfx pfx key then
    dictUpdate acc (replaceList key pfx []) (proxyGetRaw par sectName key)
  else acc

/-- The section table of a parser, as seen through a section name. -/
def sectView (cfg : Parser) (csect : Str) : Assoc :=
  (findSect cfg.sections csect).getD []

/-- The pair actually produced by a concrete synthesis, used to witness
`c9_parent_unchanged`. -/
def c9Out : Parser × Parser :=
  match createProxy (cl "component") (cl "a") (cl "section") compParMixinOnly with
  | .ok pc => pc
  | .err _ => (compParMixinOnly, compParMixinOnly)

theorem isPfx_length {p s : Str} (h : isPfx p s = true) : p.length ≤ s.length := by
  induction p generalizing s with
  | nil => exact Nat.zero_le _
  | cons a ps ih =>
    cases s with
    | nil => simp [isPfx] at h
    | cons c cs =>
      simp only [isPfx, Bool.and_eq_true] at h
      simpa using Nat.succ_le_succ (ih h.2)

theorem isPfx_refl (s : Str) : isPfx s s = true := by
  induction s with
  | nil => rfl
  | cons c cs ih => simp [isPfx, ih]

theorem findKeysF_no_pct : ∀ (f : Nat) (s : Str), noPct s → findKeysF f s = []
  | 0, _, _ => rfl
  | _ + 1, [], _ => rfl
  | f + 1, c :: t, h => by
    have hc : c ≠ '%' := h c (by simp)
    have ht : noPct t := fun x hx => h x (by simp [hx])
    simp [findKeysF, hc, findKeysF_no_pct f t ht]

theorem isPfx_pct_false {c : Char} (t : Str) (hc : c ≠ '%') :
    isPfx (cl "%%") (c :: t) = false ∧ isPfx (cl "%(") (c :: t) = false := by
  have h1 : cl "%%" = '%' :: '%' :: [] := rfl
  have h2 : cl "%(" = '%' :: '(' :: [] := rfl
  rw [h1, h2]
  simp [isPfx]
  exact ⟨fun h => absurd h.symm hc, fun h => absurd h.symm hc⟩

theorem replaceF_pct_id : ∀ (f : Nat) (s : Str), noPct s →
    replaceF f s (cl "%%") (cl "%") = s
  | 0, _, _ => rfl
  | f + 1, [], _ => by
    have : isPfx (cl "%%") [] = false := by decide
    simp [replaceF, this]
  | f + 1, c :: t, h => by
    have hc : c ≠ '%' := h c (by simp)
    have ht : noPct t := fun x hx => h x (by simp [hx])
    have hp := (isPfx_pct_false t hc).1
    simp [replaceF, hp, replaceF_pct_id f t ht]

theorem containsSub_pc_no_pct : ∀ (s : Str), noPct s → containsSub s (cl "%(") = false
  | [], _ => by decide
  | c :: t, h => by
    have hc : c ≠ '%' := h c (by simp)
    have ht : noPct t := fun x hx => h x (by simp [hx])
    have hp := (isPfx_pct_false t hc).2
    simp [containsSub, hp, containsSub_pc_no_pct t ht]

/-- `before_get` is the identity on a value with no `%` at all. -/
theorem interp_id (d : Str → Option Str) (v : Str) (h : noPct v) :
    before_get d v = .ok v := by
  have hkeys : findKeys v = [] := findKeysF_no_pct v.length v h
  have hloop : interpLoop d MAX_INTERP_DEPTH v = .ok v := by
    show interpLoop d 10 v = .ok v
    simp [interpLoop, findKeys] at hkeys ⊢
    simp [hkeys]
  have hpc : containsSub v (cl "%(") = false := containsSub_pc_no_pct v h
  have hrep : replaceF (List.length v) v (cl "%%") (cl "%") = v :=
    replaceF_pct_id v.length v h
  simp [before_get, hloop, hpc, replaceList, hrep]

/-- C1: component layering precedence.  With `base.mixin.key1 = X`,
`component.a.mixin = base.mixin` and `component.a.key1 = Y`, reading
`key1` from component `a`'s private store yields `Y` (the component's own
namespace beats the mixin); with `component.a.key1` absent it yields `X`
(the mixin beats the absence of a value, and also beats the wildcard
layer `component.*.key1 = W`). -/
theorem c1_component_precedence :
    (do
      let pc ← createProxy (cl "component") (cl "a") (cl "section") compParOwn
      privGet pc.2 (cl "component") (cl "a") (cl "key1")) = Res.ok (.str (cl "Y")) ∧
    (do
      let pc ← createProxy (cl "component") (cl "a") (cl "section") compParMixinOnly
      privGet pc.2 (cl "component") (cl "a") (cl "key1")) = Res.ok (.str (cl "X")) ∧
    (do
      let pc ← createProxy (cl "component") (cl "a") (cl "section") compParWildcard
      privGet pc.2 (cl "component") (cl "a") (cl "key1")) = Res.ok (.str (cl "X")) := by
  refine ⟨by decide, by decide, by decide⟩

/-- C2: nested interpolation resolves inside-out.  On
`%(base.%(opt)s)s` the scanner matches only the inner `%(opt)s`; the
first pass replaces it, producing the new outer placeholder
`%(base.name)s`, which matches on the next pass; and resolving `path`
through the parser returns `"a"`. -/
theorem c2_nested_interpolation :
    findKeys (cl "%(base.%(opt)s)s") = [cl "%(opt)s"] ∧
    replaceKeys interpDemoLookup (cl "%(base.%(opt)s)s") [cl "%(opt)s"] =
      Res.ok (cl "%(base.name)s") ∧
    findKeys (cl "%(base.name)s") = [cl "%(base.name)s"] ∧
    pGet interpDemoParser (cl "section") (cl "path") (.py .none) =
      Res.ok (.str (cl "a")) := by
  refine ⟨by decide, by decide, by decide, by decide⟩

/-! ## C6: Rate deadline computation -/
/-- C6: `nexttime` with `sync = false` returns the period for every time;
with `sync = true` it returns `period - ((t - offset) mod period)` in
epoch seconds (mod is Python's nonnegative-remainder `%`, `Int.emod`
here, requiring a positive period as in every real `Rate`); concretely
`period=60` at second `:05` waits 55, `period=60, offset=10` at `:05`
waits 5, and at `:15` waits 55. -/
theorem c6_rate_nexttime :
    (∀ (r : Rate) (t : Int), r.sync = false → nexttime r t = r.period) ∧
    (∀ (r : Rate) (t : Int), r.sync = true → 0 < r.period →
      nexttime r t = r.period - (t - r.offset) % r.period) ∧
    nexttime ⟨60, true, 0, false⟩ 5 = 55 ∧
    nexttime ⟨60, true, 10, false⟩ 5 = 5 ∧
    nexttime ⟨60, true, 10, false⟩ 15 = 55 := by
  refine ⟨?_, ?_, by decide, by decide, by decide⟩
  · intro r t h
    simp [nexttime, h]
  · intro r t h _
    simp [nexttime, h]

theorem findKeysF_nil : ∀ (f : Nat), findKeysF f [] = []
  | 0 => rfl
  | _ + 1 => rfl

/-- A lone well-formed placeholder is exactly what the scanner finds. -/
theorem findKeys_ph (k : Str) (hne : k ≠ []) (hbody : ∀ c ∈ k, isBodyChar c = true) :
    findKeys (phKey k) = [phKey k] := by
  have hlen : (phKey k).length = (k.length + 3) + 1 := by
    simp [phKey]
  have htake : (k ++ ')' :: 's' :: []).takeWhile isBodyChar = k := by
    rw [List.takeWhile_append_of_pos hbody]
    simp [List.takeWhile_cons, isBodyChar]
  have hdrop : (k ++ ')' :: 's' :: []).dropWhile isBodyChar = ')' :: 's' :: [] := by
    rw [List.dropWhile_append_of_pos hbody]
    simp [List.dropWhile_cons, isBodyChar]
  have hke : k.isEmpty = false := by
    cases k with
    | nil => exact absurd rfl hne
    | cons a as => rfl
  rw [findKeys, hlen]
  show findKeysF ((k.length + 3) + 1) ('%' :: '(' :: (k ++ ')' :: 's' :: [])) = _
  simp only [findKeysF, if_pos rfl, htake, hdrop, hke, Bool.false_eq_true, if_false,
    findKeysF_nil, phKey]
  simp

theorem replaceF_nil (f : Nat) (pat rep : Str) (h : pat ≠ []) :
    replaceF f [] pat rep = [] := by
  cases f with
  | zero => rfl
  | succ f =>
    have : isPfx pat [] = false := by
      cases pat with
      | nil => exact absurd rfl h
      | cons a l => rfl
    simp [replaceF, this]

/-- Replacing a whole string by itself is the identity. -/
theorem replaceList_self (s : Str) (h : s ≠ []) : replaceList s s s = s := by
  have hlen : ∃ f, s.length = f + 1 := by
    cases s with
    | nil => exact absurd rfl h
    | cons a l => exact ⟨l.length, rfl⟩
  obtain ⟨f, hf⟩ := hlen
  have hke : s.isEmpty = false := by
    cases s with
    | nil => exact absurd rfl h
    | cons a l => rfl
  rw [replaceList, hf]
  simp [replaceF, isPfx_refl s, hke, List.drop_length, replaceF_nil f s s h]

/-- The body slice of a placeholder. -/
theorem keyBody_ph (k : Str) : keyBody (phKey k) = k := by
  show ((('%' :: '(' :: (k ++ ')' :: 's' :: [])).drop 2).dropLast).dropLast = k
  have h1 : ('%' :: '(' :: (k ++ ')' :: 's' :: [])).drop 2 = k ++ ')' :: 's' :: [] := rfl
  rw [h1]
  have h2 : k ++ ')' :: 's' :: [] = (k ++ [')']) ++ ['s'] := by simp
  rw [h2, List.dropLast_concat, List.dropLast_concat]

/-- A self-referential placeholder is a fixed point of a substitution
pass. -/
theorem replaceKeys_ph (d : Str → Option Str) (k : Str) (_hne : k ≠ [])
    (hd : d (toLowerL k) = some (phKey k)) :
    replaceKeys d (phKey k) [phKey k] = .ok (phKey k) := by
  have hph : phKey k ≠ [] := by simp [phKey]
  simp [replaceKeys, keyBody_ph, hd, replaceList_self (phKey k) hph]

/-- The pass loop never escapes a self-referential placeholder. -/
theorem interpLoop_ph (d : Str → Option Str) (k : Str) (hne : k ≠ [])
    (hbody : ∀ c ∈ k, isBodyChar c = true) (hd : d (toLowerL k) = some (phKey k)) :
    ∀ (n : Nat), interpLoop d n (phKey k) = .ok (phKey k)
  | 0 => rfl
  | n + 1 => by
    have hfind := findKeys_ph k hne hbody
    have hrep := replaceKeys_ph d k hne hd
    simp [interpLoop, hfind, hrep, interpLoop_ph d k hne hbody hd n]

/-- C3: cycle/depth detection.  A placeholder that refers to itself
(its resolved body maps back to the same placeholder string) makes
`before_get` terminate with `InterpolationDepthError` after the bounded
pass loop — never a partially resolved string; the indirect two-key cycle
`a = %(b)s`, `b = %(a)s` fails the same way through the parser; and the
pass bound is the fixed constant 10. -/
theorem c3_cycle_depth :
    (∀ (d : Str → Option Str) (k : Str), k ≠ [] →
      (∀ c ∈ k, isBodyChar c = true) → d (toLowerL k) = some (phKey k) →
      before_get d (phKey k) = .err .interpDepth) ∧
    pGet cycleParser (cl "section") (cl "a") (.py .none) = .err .interpDepth ∧
    MAX_INTERP_DEPTH = 10 := by
  refine ⟨?_, by decide, rfl⟩
  intro d k hne hbody hd
  have hloop := interpLoop_ph d k hne hbody hd MAX_INTERP_DEPTH
  have hpc : containsSub (phKey k) (cl "%(") = true := by
    have : isPfx (cl "%(") (phKey k) = true := by
      show isPfx ('%' :: '(' :: []) ('%' :: '(' :: (k ++ ')' :: 's' :: [])) = true
      simp [isPfx]
    cases hk : phKey k with
    | nil => simp [phKey] at hk
    | cons c t =>
      rw [hk] at this
      simp [containsSub, this]
  simp [before_get, hloop, hpc]

/-- Witness for `c3_cycle_depth`: the direct self-reference `x = %(x)s`
hits the depth error. -/
theorem c3_cycle_depth_witness :
    before_get (fun s => if s = cl "x" then some (phKey (cl "x")) else Option.none)
      (phKey (cl "x")) = .err .interpDepth :=
  c3_cycle_depth.1 _ (cl "x") (by decide) (by decide) (by decide)

/-! ## C10: no partially interpolated result ever escapes -/
theorem cl_pp : cl "%%" = '%' :: '%' :: [] := rfl

theorem cl_pc : cl "%(" = '%' :: '(' :: [] := rfl

theorem cl_pct : cl "%" = '%' :: [] := rfl

theorem isPfx_pc_iff (x : Char) (y : Str) :
    isPfx (cl "%(") (x :: y) = true ↔ x = '%' ∧ y.head? = some '(' := by
  rw [cl_pc]
  cases y with
  | nil => simp [isPfx]
  | cons b bs =>
    simp only [isPfx, Bool.and_eq_true, beq_iff_eq, List.head?_cons,
      Option.some.injEq]
    constructor
    · rintro ⟨h1, h2, _⟩
      exact ⟨h1.symm, h2.symm⟩
    · rintro ⟨h1, h2⟩
      exact ⟨h1.symm, h2.symm, trivial⟩

theorem isPfx_pp_shape {u : Str} (hp : isPfx (cl "%%") u = true) :
    ∃ r, u = '%' :: '%' :: r := by
  rw [cl_pp] at hp
  cases u with
  | nil => simp [isPfx] at hp
  | cons a t =>
    cases t with
    | nil => simp [isPfx] at hp
    | cons b r =>
      simp [isPfx] at hp
      exact ⟨r, by rw [← hp.1, ← hp.2]⟩

theorem containsSub_tail {c : Char} {t pat : Str}
    (h : containsSub (c :: t) pat = false) : containsSub t pat = false := by
  simp [containsSub] at h
  exact h.2

theorem replaceF_pp_step (f : Nat) (r : Str) :
    replaceF (f + 1) ('%' :: '%' :: r) (cl "%%") (cl "%") =
      '%' :: replaceF f r (cl "%%") (cl "%") := by
  simp [replaceF, cl_pp, cl_pct, isPfx]

theorem replaceF_step (f : Nat) (c : Char) (r : Str)
    (hp : isPfx (cl "%%") (c :: r) = false) :
    replaceF (f + 1) (c :: r) (cl "%%") (cl "%") =
      c :: replaceF f r (cl "%%") (cl "%") := by
  simp [replaceF, hp]

theorem replaceF_nil_pp (f : Nat) : replaceF f [] (cl "%%") (cl "%") = [] :=
  replaceF_nil f _ _ (by simp [cl_pp])

/-- The head of the unescaped string cannot become `'('` unless it
already was. -/
theorem replacePP_head : ∀ (f : Nat) (t : Str),
    (replaceF f t (cl "%%") (cl "%")).head? = some '(' → t.head? = some '('
  | 0, _, h => h
  | f + 1, t, h => by
    by_cases hp : isPfx (cl "%%") t = true
    · obtain ⟨r, rfl⟩ := isPfx_pp_shape hp
      rw [replaceF_pp_step] at h
      simp at h
    · have hp' : isPfx (cl "%%") t = false := by
        cases hx : isPfx (cl "%%") t with
        | false => rfl
        | true => exact absurd hx hp
      cases t with
      | nil =>
        rw [replaceF_nil_pp] at h
        simp at h
      | cons c r =>
        rw [replaceF_step f c r hp'] at h
        simpa using h

/-- Unescaping `%%` to `%` cannot create a `%(` occurrence. -/
theorem replacePP_no_pc : ∀ (f : Nat) (u : Str),
    containsSub u (cl "%(") = false →
    containsSub (replaceF f u (cl "%%") (cl "%")) (cl "%(") = false
  | 0, _, h => h
  | f + 1, u, h => by
    by_cases hp : isPfx (cl "%%") u = true
    · obtain ⟨r, rfl⟩ := isPfx_pp_shape hp
      have hr : containsSub r (cl "%(") = false :=
        containsSub_tail (containsSub_tail h)
      have ih := replacePP_no_pc f r hr
      rw [replaceF_pp_step]
      have hhead : ¬ (replaceF f r (cl "%%") (cl "%")).head? = some '(' := by
        intro hh
        have hr' := replacePP_head f r hh
        cases r with
        | nil => simp at hr'
        | cons x xs =>
          simp at hr'
          subst hr'
          rw [cl_pc] at h
          simp [containsSub, isPfx] at h
      have hpfx : isPfx (cl "%(") ('%' :: replaceF f r (cl "%%") (cl "%")) = false := by
        cases hx : isPfx (cl "%(") ('%' :: replaceF f r (cl "%%") (cl "%")) with
        | false => rfl
        | true => exact absurd ((isPfx_pc_iff '%' _).mp hx).2 hhead
      simp [containsSub, hpfx, ih]
    · have hp' : isPfx (cl "%%") u = false := by
        cases hx : isPfx (cl "%%") u with
        | false => rfl
        | true => exact absurd hx hp
      cases u with
      | nil =>
        rw [replaceF_nil_pp]
        decide
      | cons c r =>
        have hr : containsSub r (cl "%(") = false := containsSub_tail h
        have ih := replacePP_no_pc f r hr
        rw [replaceF_step f c r hp']
        by_cases hc : c = '%'
        · subst hc
          have hhead : ¬ (replaceF f r (cl "%%") (cl "%")).head? = some '(' := by
            intro hh
            have hr' := replacePP_head f r hh
            cases r with
            | nil => simp at hr'
            | cons x xs =>
              simp at hr'
              subst hr'
              rw [cl_pc] at h
              simp [containsSub, isPfx] at h
          have hpfx : isPfx (cl "%(") ('%' :: replaceF f r (cl "%%") (cl "%")) = false := by
            cases hx : isPfx (cl "%(") ('%' :: replaceF f r (cl "%%") (cl "%")) with
            | false => rfl
            | true => exact absurd ((isPfx_pc_iff '%' _).mp hx).2 hhead
          simp [containsSub, hpfx, ih]
        · have hpfx : isPfx (cl "%(") (c :: replaceF f r (cl "%%") (cl "%")) = false := by
            cases hx : isPfx (cl "%(") (c :: replaceF f r (cl "%%") (cl "%")) with
            | false => rfl
            | true => exact absurd ((isPfx_pc_iff c _).mp hx).1 hc
          simp [containsSub, hpfx, ih]

/-- C10: interpolation never returns a string still containing `%(`.
Every successful `before_get` result is free of `%(` (the depth check
runs before unescaping, and unescaping `%%` cannot create `%(`); the
malformed remnant `%(name)` (no trailing `s`, `name` undefined) raises
the depth error — not the missing-target error — after a single pass, and
so does the escaped remnant `%%(`. -/
theorem c10_no_residual_placeholder :
    (∀ (d : Str → Option Str) (v w : Str), before_get d v = .ok w →
      containsSub w (cl "%(") = false) ∧
    pGet malformedParser (cl "section") (cl "path") (.py .none) = .err .interpDepth ∧
    pGet escapedParser (cl "section") (cl "path") (.py .none) = .err .interpDepth := by
  refine ⟨?_, by decide, by decide⟩
  intro d v w h
  rw [before_get] at h
  cases hl : interpLoop d MAX_INTERP_DEPTH v with
  | err e =>
    rw [hl] at h
    simp at h
  | ok u =>
    rw [hl] at h
    have h' : (if containsSub u (cl "%(") = true then Res.err PErr.interpDepth
        else Res.ok (replaceList u (cl "%%") (cl "%"))) = Res.ok w := h
    by_cases hc : containsSub u (cl "%(") = true
    · rw [if_pos hc] at h'
      simp at h'
    · have hc' : containsSub u (cl "%(") = false := by
        cases hx : containsSub u (cl "%(") with
        | false => rfl
        | true => exact absurd hx hc
      rw [if_neg hc] at h'
      simp at h'
      rw [← h', replaceList]
      exact replacePP_no_pc u.length u hc'

/-- Witness for `c10_no_residual_placeholder`: a placeholder-free value
passes through and indeed contains no `%(`. -/
theorem c10_no_residual_placeholder_witness :
    containsSub (cl "ok") (cl "%(") = false :=
  c10_no_residual_placeholder.1 (fun _ => Option.none) (cl "ok") (cl "ok") (by decide)

/-! ## C5: typed-accessor fallback semantics -/
/-- Evaluating `RawConfigParser.get` on a present section and an absent
option with the `_UNSET` sentinel: raise `NoOptionError`. -/
theorem cpGet_absent_unset {p : Parser} {sect opt : Str} {sd : Assoc}
    (hs : findSect p.sections sect = some sd)
    (ho : sectGet p sd (toLowerL opt) = Option.none) (raw : Bool) :
    cpGet p sect opt raw .unset = .err (.noOption sect (toLowerL opt)) := by
  simp [cpGet, hs, ho]

/-- Evaluating `RawConfigParser.get` on a present section and an absent
option with a concrete fallback: return the fallback itself. -/
theorem cpGet_absent_py {p : Parser} {sect opt : Str} {sd : Assoc}
    (hs : findSect p.sections sect = some sd)
    (ho : sectGet p sd (toLowerL opt) = Option.none) (raw : Bool) (v : PyVal) :
    cpGet p sect opt raw (.py v) = .ok v := by
  simp [cpGet, hs, ho]

/-- On an absent option, `_get_conv` applies exactly the fallback rules. -/
theorem get_conv_absent {p : Parser} {sect opt : Str} {sd : Assoc}
    (hs : findSect p.sections sect = some sd)
    (ho : sectGet p sd (toLowerL opt) = Option.none)
    (conv : PyVal → Res PyVal) (fb : Fb) :
    get_conv conv p sect opt fb = convFb conv fb (.noOption sect (toLowerL opt)) := by
  rw [get_conv, cpGet_absent_unset hs ho]

theorem hexVal_digitChar (d : Nat) (h : d < 10) : hexVal (Nat.digitChar d) = some d := by
  interval_cases d <;> decide

theorem digitChar_props (d : Nat) (h : d < 10) :
    isSpace (Nat.digitChar d) = false ∧ Nat.digitChar d ≠ '+' ∧
      Nat.digitChar d ≠ '-' := by
  interval_cases d <;> exact ⟨rfl, by decide, by decide⟩

theorem digitChar_ne_zero (d : Nat) (h1 : d < 10) (h2 : d ≠ 0) :
    Nat.digitChar d ≠ '0' := by
  interval_cases d
  all_goals first
  | exact absurd rfl h2
  | decide

/-- The fuel-based digit expansion agrees with `Nat.digits 10`. -/
theorem natReprAux_digits : ∀ (f n : Nat), n ≤ f →
    natReprAux f n = (Nat.digits 10 n).map Nat.digitChar
  | 0, n, h => by
    have : n = 0 := Nat.le_zero.mp h
    subst this
    simp [natReprAux]
  | f + 1, n, h => by
    by_cases hn : n = 0
    · subst hn
      simp [natReprAux]
    · have hpos : 0 < n := Nat.pos_of_ne_zero hn
      have hdiv : n / 10 < n := Nat.div_lt_self hpos (by norm_num)
      have hle : n / 10 ≤ f := by omega
      rw [natReprAux, if_neg hn, natReprAux_digits f (n / 10) hle,
        Nat.digits_def' (by norm_num : (1:Nat) < 10) hpos]
      simp

theorem digitsValGo_append (b : Nat) : ∀ (xs ys : Str) (acc : Nat),
    digitsValGo b acc (xs ++ ys) =
      (digitsValGo b acc xs).bind (fun a => digitsValGo b a ys)
  | [], ys, acc => rfl
  | c :: t, ys, acc => by
    rw [List.cons_append, digitsValGo, digitsValGo]
    cases hexVal c with
    | none => rfl
    | some d =>
      by_cases hd : d < b
      · simp only [hd, if_true]
        exact digitsValGo_append b t ys (acc * b + d)
      · simp [hd]

/-- Horner evaluation of a most-significant-first digit rendering. -/
theorem digitsValGo_rev : ∀ (ds : List Nat) (acc : Nat), (∀ d ∈ ds, d < 10) →
    digitsValGo 10 acc ((ds.map Nat.digitChar).reverse) =
      some (acc * 10 ^ ds.length + Nat.ofDigits 10 ds)
  | [], acc, _ => by simp [digitsValGo, Nat.ofDigits_nil]
  | d :: ds, acc, h => by
    have hd : d < 10 := h d (by simp)
    have hds : ∀ x ∈ ds, x < 10 := fun x hx => h x (by simp [hx])
    rw [List.map_cons, List.reverse_cons, digitsValGo_append,
      digitsValGo_rev ds acc hds]
    simp only [Option.some_bind, digitsValGo, hexVal_digitChar d hd, hd, if_true]
    rw [Nat.ofDigits_cons, List.length_cons, pow_succ]
    ring

theorem dropWhile_id {p : Char → Bool} {s : Str} (h : ∀ c ∈ s, p c = false) :
    s.dropWhile p = s := by
  cases s with
  | nil => rfl
  | cons a t =>
    rw [List.dropWhile_cons, if_neg]
    simp [h a (by simp)]

/-- `strip()` does nothing to a string with no whitespace. -/
theorem pyStrip_id {s : Str} (h : ∀ c ∈ s, isSpace c = false) : pyStrip s = s := by
  rw [pyStrip, dropWhile_id h, dropWhile_id, List.reverse_reverse]
  intro c hc
  exact h c (List.mem_reverse.mp hc)

/-- For positive `n`, `str(n)` is the digit rendering of `Nat.digits`. -/
theorem natRepr_eq {n : Nat} (h : 0 < n) :
    natRepr n = ((Nat.digits 10 n).map Nat.digitChar).reverse := by
  rw [natRepr, if_neg (Nat.pos_iff_ne_zero.mp h),
    natReprAux_digits n n (Nat.le_refl n)]

/-- The leading character of `str(n)` is a nonzero digit. -/
theorem natRepr_shape {n : Nat} (h : 0 < n) :
    ∃ (m0 : Nat) (M : List Nat),
      natRepr n = Nat.digitChar m0 :: M.map Nat.digitChar ∧
      m0 < 10 ∧ m0 ≠ 0 ∧ (∀ x ∈ M, x < 10) := by
  have hn0 : n ≠ 0 := Nat.pos_iff_ne_zero.mp h
  have hL : Nat.digits 10 n ≠ [] := Nat.digits_ne_nil_iff_ne_zero.mpr hn0
  have hRne : (Nat.digits 10 n).reverse ≠ [] := by
    simpa [List.reverse_eq_nil_iff] using hL
  obtain ⟨m0, M, hM⟩ : ∃ m0 M, (Nat.digits 10 n).reverse = m0 :: M := by
    cases hx : (Nat.digits 10 n).reverse with
    | nil => exact absurd hx hRne
    | cons a t => exact ⟨a, t, rfl⟩
  have hLform : Nat.digits 10 n = M.reverse ++ [m0] := by
    have := congrArg List.reverse hM
    simpa [List.reverse_reverse] using this
  have hmem : m0 ∈ Nat.digits 10 n := by
    rw [hLform]
    simp
  have hm0lt : m0 < 10 := Nat.digits_lt_base (by norm_num) hmem
  have hm0ne : m0 ≠ 0 := by
    have hgl := Nat.getLast_digit_ne_zero 10 hn0
    have hgl2 : (Nat.digits 10 n).getLast hL = m0 := by
      calc (Nat.digits 10 n).getLast hL
          = (M.reverse ++ [m0]).getLast (by simp) := by
            congr 1
        _ = m0 := List.getLast_concat _
    rwa [hgl2] at hgl
  have hMlt : ∀ x ∈ M, x < 10 := by
    intro x hx
    have hxL : x ∈ Nat.digits 10 n := by
      rw [hLform]
      exact List.mem_append.mpr (Or.inl (List.mem_reverse.mpr hx))
    exact Nat.digits_lt_base (by norm_num) hxL
  refine ⟨m0, M, ?_, hm0lt, hm0ne, hMlt⟩
  rw [natRepr_eq h, ← List.map_reverse, hM, List.map_cons]

/-- Parsing the decimal rendering of a positive `n` gives back `n`. -/
theorem natRepr_digitsVal {n : Nat} (h : 0 < n) :
    digitsVal 10 (natRepr n) = some n := by
  obtain ⟨m0, M, hshape, _, _, _⟩ := natRepr_shape h
  have hne : (natRepr n).isEmpty = false := by
    rw [hshape]
    rfl
  rw [digitsVal, if_neg (by simp [hne])]
  rw [natRepr_eq h]
  have hall : ∀ d ∈ Nat.digits 10 n, d < 10 :=
    fun d hd => Nat.digits_lt_base (by norm_num) hd
  rw [digitsValGo_rev (Nat.digits 10 n) 0 hall]
  simp [Nat.ofDigits_digits]

/-- No whitespace occurs in `str(n)`. -/
theorem natRepr_no_space {n : Nat} : ∀ c ∈ natRepr n, isSpace c = false := by
  by_cases h : n = 0
  · subst h
    intro c hc
    simp [natRepr, cl] at hc
    subst hc
    rfl
  · intro c hc
    rw [natRepr_eq (Nat.pos_of_ne_zero h)] at hc
    rw [List.mem_reverse] at hc
    obtain ⟨d, hd, rfl⟩ := List.mem_map.mp hc
    exact (digitChar_props d (Nat.digits_lt_base (by norm_num) hd)).1

/-- The base-0 magnitude parse on a string not starting with `'0'` is the
plain decimal parse. -/
theorem pyIntMag_plain (c : Char) (rest : Str) (hc : c ≠ '0') :
    pyIntMag 0 (c :: rest) = digitsVal 10 (c :: rest) := by
  rw [pyIntMag.eq_def]
  split
  · rename_i c2 r2 heq
    injection heq with h1 _
    exact absurd h1 hc
  · rfl
  all_goals simp_all

theorem pyInt_no_sign (s : Str) (base : Nat) (c : Char) (rest : Str)
    (hstrip : pyStrip s = c :: rest) (hp : c ≠ '+') (hm : c ≠ '-') :
    pyInt s base = (pyIntMag base (c :: rest)).map Int.ofNat := by
  rw [pyInt.eq_def, hstrip]
  split
  · rename_i r heq
    injection heq with h1 _
    exact absurd h1 hp
  · rename_i r heq
    injection heq with h1 _
    exact absurd h1 hm
  · rfl

theorem pyInt_neg_sign (s : Str) (base : Nat) (rest : Str)
    (hstrip : pyStrip s = '-' :: rest) :
    pyInt s base = (pyIntMag base rest).map (fun n => -(n : Int)) := by
  rw [pyInt.eq_def, hstrip]
  rfl

/-- `int(str(i), 0) = i`: the default-base `get_int` conversion is the
identity on integer fallbacks. -/
theorem pyInt_intRepr (i : Int) : pyInt (intRepr i) 0 = some i := by
  cases i with
  | ofNat n =>
    cases Nat.eq_zero_or_pos n with
    | inl h0 =>
      subst h0
      decide
    | inr hpos =>
      have hrepr : intRepr (Int.ofNat n) = natRepr n := by
        rw [intRepr, if_neg (not_lt.mpr (show (0 : Int) ≤ Int.ofNat n from by
          rw [Int.ofNat_eq_natCast]
          exact_mod_cast Nat.zero_le n))]
        simp
      rw [hrepr]
      obtain ⟨m0, M, hshape, hm0lt, hm0ne, _⟩ := natRepr_shape hpos
      have hprops := digitChar_props m0 hm0lt
      have hstrip : pyStrip (natRepr n) = natRepr n := pyStrip_id natRepr_no_space
      rw [pyInt_no_sign (natRepr n) 0 (Nat.digitChar m0) (M.map Nat.digitChar)
        (by rw [hstrip, hshape]) hprops.2.1 hprops.2.2]
      rw [← hshape, show pyIntMag 0 (natRepr n) = digitsVal 10 (natRepr n) from by
        rw [hshape]
        exact pyIntMag_plain _ _ (digitChar_ne_zero m0 hm0lt hm0ne)]
      rw [natRepr_digitsVal hpos]
      rfl
  | negSucc n =>
    have hpos : 0 < n + 1 := Nat.succ_pos n
    have hrepr : intRepr (Int.negSucc n) = '-' :: natRepr (n + 1) := by
      rw [intRepr, if_pos (Int.negSucc_lt_zero n)]
      rfl
    rw [hrepr]
    have hns : ∀ c ∈ '-' :: natRepr (n + 1), isSpace c = false := by
      intro c hc
      cases List.mem_cons.mp hc with
      | inl h1 =>
        subst h1
        rfl
      | inr h2 => exact natRepr_no_space c h2
    rw [pyInt_neg_sign ('-' :: natRepr (n + 1)) 0 (natRepr (n + 1)) (pyStrip_id hns)]
    obtain ⟨m0, M, hshape, hm0lt, hm0ne, _⟩ := natRepr_shape hpos
    rw [show pyIntMag 0 (natRepr (n + 1)) = digitsVal 10 (natRepr (n + 1)) from by
      rw [hshape]
      exact pyIntMag_plain _ _ (digitChar_ne_zero m0 hm0lt hm0ne)]
    rw [natRepr_digitsVal hpos]
    simp [Int.negSucc_eq]

theorem lookupA_append : ∀ (d1 d2 : Assoc) (k : Str),
    lookupA (d1 ++ d2) k =
      match lookupA d1 k with
      | some v => some v
      | Option.none => lookupA d2 k
  | [], _, _ => rfl
  | (a, b) :: t, d2, k => by
    by_cases h : a = k
    · simp [lookupA, h]
    · simp only [List.cons_append, lookupA, if_neg h]
      exact lookupA_append t d2 k

theorem lookupA_map_ne : ∀ (d : Assoc) (k v k' : Str), k ≠ k' →
    lookupA (d.map (fun kv => if kv.1 = k then (k, v) else kv)) k' = lookupA d k'
  | [], _, _, _, _ => rfl
  | (a, b) :: t, k, v, k', hne => by
    rw [List.map_cons]
    by_cases h : a = k
    · subst h
      have hf : (if (a, b).1 = a then (a, v) else (a, b)) = (a, v) :=
        if_pos rfl
      rw [hf]
      show (if a = k' then some v else _) = (if a = k' then some b else _)
      rw [if_neg hne, if_neg hne]
      exact lookupA_map_ne t a v k' hne
    · have hf : (if (a, b).1 = k then (k, v) else (a, b)) = (a, b) := if_neg h
      rw [hf]
      show (if a = k' then some b else _) = (if a = k' then some b else _)
      by_cases h2 : a = k'
      · rw [if_pos h2, if_pos h2]
      · rw [if_neg h2, if_neg h2]
        exact lookupA_map_ne t k v k' hne

theorem lookupA_map_self : ∀ (d : Assoc) (k v : Str),
    (lookupA d k).isSome = true →
    lookupA (d.map (fun kv => if kv.1 = k then (k, v) else kv)) k = some v
  | [], k, v, h => by simp [lookupA] at h
  | (a, b) :: t, k, v, h => by
    rw [List.map_cons]
    by_cases ha : a = k
    · subst ha
      have hf : (if (a, b).1 = a then (a, v) else (a, b)) = (a, v) :=
        if_pos rfl
      rw [hf]
      show (if a = a then some v else _) = some v
      rw [if_pos rfl]
    · have hf : (if (a, b).1 = k then (k, v) else (a, b)) = (a, b) := if_neg ha
      rw [hf]
      have h' : (lookupA t k).isSome = true := by
        have hl : lookupA ((a, b) :: t) k = lookupA t k := by
          show (if a = k then some b else lookupA t k) = lookupA t k
          exact if_neg ha
        rwa [hl] at h
      show (if a = k then some b else _) = some v
      rw [if_neg ha]
      exact lookupA_map_self t k v h'

/-- `d[k] = v` then `d[k]` reads back `v`. -/
theorem lookupA_dictUpdate_self (d : Assoc) (k v : Str) :
    lookupA (dictUpdate d k v) k = some v := by
  rw [dictUpdate]
  by_cases h : (lookupA d k).isSome = true
  · rw [if_pos h]
    exact lookupA_map_self d k v h
  · rw [if_neg h, lookupA_append]
    have hn : lookupA d k = Option.none := by
      cases hx : lookupA d k with
      | none => rfl
      | some w => rw [hx] at h; simp at h
    rw [hn]
    simp [lookupA]

/-- `d[k] = v` leaves every other key alone. -/
theorem lookupA_dictUpdate_ne (d : Assoc) (k v k' : Str) (hne : k ≠ k') :
    lookupA (dictUpdate d k v) k' = lookupA d k' := by
  rw [dictUpdate]
  by_cases h : (lookupA d k).isSome = true
  · rw [if_pos h]
    exact lookupA_map_ne d k v k' hne
  · rw [if_neg h, lookupA_append]
    cases hx : lookupA d k' with
    | none => simp [hx, lookupA, hne]
    | some w => simp [hx]

/-- `parser.set` on a present section rewrites exactly that section's
table. -/
theorem findSect_pSet_self : ∀ (ss : List (Str × Assoc)) (sect : Str) (sd : Assoc)
    (g : Assoc → Assoc), findSect ss sect = some sd →
    findSect (ss.map (fun s => if s.1 = sect then (s.1, g s.2) else s)) sect =
      some (g sd)
  | [], _, _, _, h => by simp [findSect] at h
  | (n, t) :: rest, sect, sd, g, h => by
    rw [List.map_cons]
    by_cases hn : n = sect
    · subst hn
      have hts : (if n = n then some t else findSect rest n) = some sd := h
      rw [if_pos rfl] at hts
      have hf : (if (n, t).1 = n then ((n, t).1, g (n, t).2) else (n, t)) =
          (n, g t) := if_pos rfl
      rw [hf]
      show (if n = n then some (g t) else _) = some (g sd)
      rw [if_pos rfl, Option.some.inj hts]
    · have hf : (if (n, t).1 = sect then ((n, t).1, g (n, t).2) else (n, t)) =
          (n, t) := if_neg hn
      rw [hf]
      have h' : findSect rest sect = some sd := by
        have : (if n = sect then some t else findSect rest sect) = some sd := h
        rwa [if_neg hn] at this
      show (if n = sect then some t else _) = some (g sd)
      rw [if_neg hn]
      exact findSect_pSet_self rest sect sd g h'

/-- C5 counterexample: the claim "`get_int` with an int fallback returns
exactly that int regardless of the base argument" is false — with
`base=16` and fallback `10`, `get_int` re-converts through
`int(str(10), 16)` and returns `16`. -/
theorem c5_counterexample :
    get_int c5Par (cl "section") (cl "missing") 16 (.py (.int 10)) =
      .ok (some 16) ∧
    get_int c5Par (cl "section") (cl "missing") 16 (.py (.int 10)) ≠
      .ok (some 10) := by
  refine ⟨by decide, by decide⟩

/-- C5 (amended): on an absent option with a concrete fallback, a string
fallback goes through the accessor's own conversion — identically to a
present value for the `_get_conv` accessors — while a non-string fallback
is returned as-is by the `_get_conv` accessors
(`get_path`/`get_bytes`/`get_datetime`/`get_timespan`) and by
`get_timedelta`; `get_boolean` re-converts a boolean fallback through
`str()` but yields the same boolean; and `get_int` re-converts an integer
fallback through `int(str(fallback), base)`, which is the identity at the
default base 0 but not in general (base 16 turns fallback 10 into 16). -/
theorem c5_fallback_semantics (p : Parser) (sect opt : Str) (sd : Assoc)
    (hs : findSect p.sections sect = some sd)
    (ho : sectGet p sd (toLowerL opt) = Option.none)
    (hds : sect ≠ cl "DEFAULT") :
    (∀ (conv : PyVal → Res PyVal) (s : Str),
      get_conv conv p sect opt (.py (.str s)) = conv (.str s)) ∧
    (∀ (conv : PyVal → Res PyVal) (v : PyVal), isStrOrNone v = false →
      get_conv conv p sect opt (.py v) = .ok v) ∧
    (∀ (conv : PyVal → Res PyVal) (s : Str) (fb2 : Fb), noPct s →
      get_conv conv (pSet p sect opt s) sect opt fb2 =
        get_conv conv p sect opt (.py (.str s))) ∧
    (∀ q, get_path p sect opt (.py (.path q)) = .ok (.path q)) ∧
    (∀ s, get_path p sect opt (.py (.str s)) = as_path (.str s)) ∧
    (∀ (psize : Str → Option Int) (s : Str),
      get_bytes psize p sect opt (.py (.str s)) = as_bytes psize (.str s)) ∧
    (∀ (pdt : Str → Option Int) (s : Str),
      get_datetime pdt p sect opt (.py (.str s)) = as_datetime pdt (.str s)) ∧
    (∀ (tp : Str → Option Int) (s : Str),
      get_timespan tp p sect opt (.py (.str s)) = as_timespan tp (.str s)) ∧
    (∀ (tp : Str → Option Int) (n : Int),
      get_timedelta tp p sect opt (.py (.timedelta n)) = .ok (some n)) ∧
    (∀ (tp : Str → Option Int) (s : Str),
      get_timedelta tp p sect opt (.py (.str s)) = as_timedelta tp (.str s)) ∧
    (∀ b, get_boolean p sect opt (.py (.bool b)) = .ok (some b)) ∧
    (∀ (n : Int), get_int p sect opt 0 (.py (.int n)) = .ok (some n)) ∧
    get_int p sect opt 16 (.py (.int 10)) = .ok (some 16) := by
  have habs : ∀ (v : PyVal), cpGet p sect opt false (.py v) = .ok v :=
    fun v => cpGet_absent_py hs ho false v
  refine ⟨?_, ?_, ?_, ?_, ?_, ?_, ?_, ?_, ?_, ?_, ?_, ?_, ?_⟩
  · intro conv s
    rw [get_conv_absent hs ho]
    rfl
  · intro conv v hv
    rw [get_conv_absent hs ho]
    cases v with
    | str s => simp [isStrOrNone] at hv
    | none => simp [isStrOrNone] at hv
    | int n => rfl
    | bool b => rfl
    | timedelta n => rfl
    | datetime n => rfl
    | path q => rfl
    | list xs => rfl
    | timespan args => rfl
  · intro conv s fb2 hnp
    have hfs : findSect (pSet p sect opt s).sections sect =
        some (dictUpdate sd (toLowerL opt) s) := by
      simp only [pSet, if_neg hds]
      exact findSect_pSet_self p.sections sect sd
        (fun sd2 => dictUpdate sd2 (toLowerL opt) s) hs
    have hsg : sectGet (pSet p sect opt s) (dictUpdate sd (toLowerL opt) s)
        (toLowerL opt) = some s := by
      rw [sectGet, lookupA_dictUpdate_self]
    have hcp : cpGet (pSet p sect opt s) sect opt false .unset = .ok (.str s) := by
      rw [cpGet, hfs]
      simp only [hsg]
      simp [interp_id _ s hnp]
    rw [get_conv, hcp, get_conv_absent hs ho]
    rfl
  · intro q
    rw [get_path, get_conv_absent hs ho]
    rfl
  · intro s
    rw [get_path, get_conv_absent hs ho]
    rfl
  · intro psize s
    rw [get_bytes, get_conv_absent hs ho]
    rfl
  · intro pdt s
    rw [get_datetime, get_conv_absent hs ho]
    rfl
  · intro tp s
    rw [get_timespan, get_conv_absent hs ho]
    rfl
  · intro tp n
    simp only [get_timedelta, pGet, habs (.timedelta n)]
    rfl
  · intro tp s
    simp only [get_timedelta, pGet, habs (.str s)]
    rfl
  · intro b
    simp only [get_boolean, pGet, habs (.bool b)]
    cases b <;> rfl
  · intro n
    simp only [get_int, pGet, habs (.int n)]
    show (match pyInt (pyStr (.int n)) 0 with
      | some m => (pure (some m) : Res (Option Int))
      | Option.none => .err .valueError) = .ok (some n)
    rw [show pyStr (PyVal.int n) = intRepr n from rfl, pyInt_intRepr n]
    rfl
  · simp only [get_int, pGet, habs (.int 10)]
    decide

/-- Witness for `c5_fallback_semantics`: the fallback rules at a concrete
empty section. -/
theorem c5_fallback_semantics_witness :
    get_path c5Par (cl "section") (cl "missing") (.py (.path (cl "/tmp"))) =
      .ok (.path (cl "/tmp")) ∧
    get_int c5Par (cl "section") (cl "missing") 0 (.py (.int 7)) = .ok (some 7) := by
  have H := c5_fallback_semantics c5Par (cl "section") (cl "missing") []
    (by decide) (by decide) (by decide)
  exact ⟨H.2.2.2.1 (cl "/tmp"), H.2.2.2.2.2.2.2.2.2.2.2.1 7⟩

/-- C8 counterexample: with an explicit separator and an empty-string
fallback, `get_list` returns `[""]`, not the empty list the claim
states (Python `"".split(",") == [""]`). -/
theorem c8_counterexample :
    get_list c8Par (cl "section") (cl "missing") (some (cl ",")) (.py (.str (cl ""))) =
      .ok [cl ""] ∧
    get_list c8Par (cl "section") (cl "missing") (some (cl ",")) (.py (.str (cl ""))) ≠
      .ok [] := by
  refine ⟨by decide, by decide⟩

/-- C8 (amended): an absent option with no fallback yields `[]`/`∅` for
any separator; an empty-string input (fallback or present value) yields
`[]`/`∅` when splitting on whitespace; but with an explicit separator an
empty string yields `[""]`/`{""}` — these are the only deviations from
the claim. -/
theorem c8_empty_list_set (p : Parser) (sect opt : Str) (sd : Assoc)
    (hs : findSect p.sections sect = some sd)
    (ho : sectGet p sd (toLowerL opt) = Option.none)
    (hds : sect ≠ cl "DEFAULT") :
    (∀ (sep : Option Str), get_list p sect opt sep (.py .none) = .ok []) ∧
    (∀ (sep : Option Str), get_set p sect opt sep (.py .none) = .ok ∅) ∧
    get_list p sect opt Option.none (.py (.str (cl ""))) = .ok [] ∧
    get_set p sect opt Option.none (.py (.str (cl ""))) = .ok ∅ ∧
    (∀ (sp : Str), sp ≠ [] →
      get_list p sect opt (some sp) (.py (.str (cl ""))) = .ok [cl ""]) ∧
    (∀ (sp : Str), sp ≠ [] →
      get_set p sect opt (some sp) (.py (.str (cl ""))) = .ok {cl ""}) ∧
    (∀ (fb2 : Fb), get_list (pSet p sect opt (cl "")) sect opt Option.none fb2 =
      .ok []) := by
  have habs : ∀ (v : PyVal), cpGet p sect opt false (.py v) = .ok v :=
    fun v => cpGet_absent_py hs ho false v
  refine ⟨?_, ?_, ?_, ?_, ?_, ?_, ?_⟩
  · intro sep
    simp only [get_list, pGet, habs PyVal.none]
    cases sep <;> rfl
  · intro sep
    simp only [get_set, pGet, habs PyVal.none]
    cases sep <;> rfl
  · simp only [get_list, pGet, habs (.str (cl ""))]
    rfl
  · simp only [get_set, pGet, habs (.str (cl ""))]
    rfl
  · intro sp _hsp
    simp only [get_list, pGet, habs (.str (cl ""))]
    rfl
  · intro sp _hsp
    simp only [get_set, pGet, habs (.str (cl ""))]
    rfl
  · intro fb2
    have hfs : findSect (pSet p sect opt (cl "")).sections sect =
        some (dictUpdate sd (toLowerL opt) (cl "")) := by
      simp only [pSet, if_neg hds]
      exact findSect_pSet_self p.sections sect sd
        (fun sd2 => dictUpdate sd2 (toLowerL opt) (cl "")) hs
    have hsg : sectGet (pSet p sect opt (cl "")) (dictUpdate sd (toLowerL opt) (cl ""))
        (toLowerL opt) = some (cl "") := by
      rw [sectGet, lookupA_dictUpdate_self]
    have hnp : noPct (cl "") := fun c hc => absurd hc (List.not_mem_nil c)
    have hcp : cpGet (pSet p sect opt (cl "")) sect opt false fb2 = .ok (.str (cl "")) := by
      rw [cpGet.eq_def, hfs]
      simp only [hsg]
      simp [interp_id _ (cl "") hnp]
    simp only [get_list, pGet, hcp]
    rfl

/-- Witness for `c8_empty_list_set`: concrete empty/absent reads. -/
theorem c8_empty_list_set_witness :
    get_list c8Par (cl "section") (cl "missing") Option.none (.py .none) = .ok [] ∧
    get_set c8Par (cl "section") (cl "missing") (some (cl ",")) (.py (.str (cl ""))) =
      .ok {cl ""} := by
  have H := c8_empty_list_set c8Par (cl "section") (cl "missing")
    [(cl "empty", cl "")] (by decide) (by decide) (by decide)
  exact ⟨H.1 Option.none, H.2.2.2.2.2.1 (cl ",") (by decide)⟩

/-! ## C4: get_rate period resolution -/
theorem res_bind_ok {α β : Type} (a : α) (f : α → Res β) : (Res.ok a >>= f) = f a := rfl

/-- Evaluating `RawConfigParser.get` on a present, placeholder-free
value: interpolation is the identity, any fallback is ignored. -/
theorem cpGet_present {p : Parser} {sect opt : Str} {sd : Assoc} {a : Str}
    (hs : findSect p.sections sect = some sd)
    (ha : sectGet p sd (toLowerL opt) = some a) (hnp : noPct a) (fb : Fb) :
    cpGet p sect opt false fb = .ok (.str a) := by
  rw [cpGet.eq_def, hs]
  simp only [ha]
  simp [interp_id _ a hnp]

/-- C4: `get_rate` resolves the period from `option`, then `option.period`
(the latter overriding when both are present), cascading to the fallback
`Rate`'s period (or the plain fallback); an unresolved period yields
`None`, never a partially built `Rate`; and a resolved period fills the
remaining fields from the fallback.  Stated with the auxiliary
`option.sync`/`option.offset`/`option.at_start` keys absent, so the
constructed fields are exactly the fallback's. -/
theorem c4_get_rate_period (tp : Str → Option Int) (p : Parser) (sect opt : Str)
    (sd : Assoc) (hs : findSect p.sections sect = some sd)
    (hsync : sectGet p sd (toLowerL (opt ++ cl ".sync")) = Option.none)
    (hoff : sectGet p sd (toLowerL (opt ++ cl ".offset")) = Option.none)
    (hast : sectGet p sd (toLowerL (opt ++ cl ".at_start")) = Option.none) :
    (∀ (a b : Str) (na nb : Int) (r : Rate),
      sectGet p sd (toLowerL opt) = some a → noPct a → tp a = some na →
      sectGet p sd (toLowerL (opt ++ cl ".period")) = some b → noPct b →
      tp b = some nb →
      get_rate tp p sect opt (.rate r) =
        .ok (some ⟨nb, r.sync, r.offset, r.at_start⟩)) ∧
    (∀ (a : Str) (na : Int) (r : Rate),
      sectGet p sd (toLowerL opt) = some a → noPct a → tp a = some na →
      sectGet p sd (toLowerL (opt ++ cl ".period")) = Option.none →
      get_rate tp p sect opt (.rate r) =
        .ok (some ⟨na, r.sync, r.offset, r.at_start⟩)) ∧
    (∀ (r : Rate),
      sectGet p sd (toLowerL opt) = Option.none →
      sectGet p sd (toLowerL (opt ++ cl ".period")) = Option.none →
      get_rate tp p sect opt (.rate r) = .ok (some r)) ∧
    (sectGet p sd (toLowerL opt) = Option.none →
      sectGet p sd (toLowerL (opt ++ cl ".period")) = Option.none →
      get_rate tp p sect opt (.py .none) = .ok Option.none) ∧
    (∀ (k : Int),
      sectGet p sd (toLowerL opt) = Option.none →
      sectGet p sd (toLowerL (opt ++ cl ".period")) = Option.none →
      get_rate tp p sect opt (.py (.int k)) = .ok (some ⟨k, false, 0, false⟩)) := by
  have haux : ∀ (r : Rate),
      get_boolean p sect (opt ++ cl ".sync") (.py (.bool r.sync)) =
        .ok (some r.sync) ∧
      get_timedelta tp p sect (opt ++ cl ".offset") (.py (.timedelta r.offset)) =
        .ok (some r.offset) ∧
      get_boolean p sect (opt ++ cl ".at_start") (.py (.bool r.at_start)) =
        .ok (some r.at_start) := by
    intro r
    refine ⟨?_, ?_, ?_⟩
    · simp only [get_boolean, pGet, cpGet_absent_py hs hsync false (PyVal.bool r.sync),
        res_bind_ok]
      cases r.sync <;> rfl
    · simp only [get_timedelta, pGet,
        cpGet_absent_py hs hoff false (PyVal.timedelta r.offset), res_bind_ok]
      rfl
    · simp only [get_boolean, pGet,
        cpGet_absent_py hs hast false (PyVal.bool r.at_start), res_bind_ok]
      cases r.at_start <;> rfl
  have hauxd :
      get_boolean p sect (opt ++ cl ".sync") (.py (.bool false)) = .ok (some false) ∧
      get_timedelta tp p sect (opt ++ cl ".offset") (.py (.int 0)) = .ok (some 0) ∧
      get_boolean p sect (opt ++ cl ".at_start") (.py (.bool false)) =
        .ok (some false) := by
    refine ⟨?_, ?_, ?_⟩
    · simp only [get_boolean, pGet, cpGet_absent_py hs hsync false (PyVal.bool false),
        res_bind_ok]
      rfl
    · simp only [get_timedelta, pGet,
        cpGet_absent_py hs hoff false (PyVal.int 0), res_bind_ok]
      rfl
    · simp only [get_boolean, pGet,
        cpGet_absent_py hs hast false (PyVal.bool false), res_bind_ok]
      rfl
  refine ⟨?_, ?_, ?_, ?_, ?_⟩
  · intro a b na nb r ha hnpa htpa hb hnpb htpb
    have h1 : get_timedelta tp p sect opt (.py (.timedelta r.period)) =
        .ok (some na) := by
      simp only [get_timedelta, pGet, cpGet_present hs ha hnpa, res_bind_ok]
      simp [as_timedelta, htpa]
    have h2 : get_timedelta tp p sect (opt ++ cl ".period") (.py (tdOpt (some na))) =
        .ok (some nb) := by
      simp only [get_timedelta, pGet, cpGet_present hs hb hnpb, res_bind_ok]
      simp [as_timedelta, htpb]
    obtain ⟨h3, h4, h5⟩ := haux r
    simp only [get_rate, hs, h1, h2, h3, h4, h5, res_bind_ok]
    rfl
  · intro a na r ha hnpa htpa hb
    have h1 : get_timedelta tp p sect opt (.py (.timedelta r.period)) =
        .ok (some na) := by
      simp only [get_timedelta, pGet, cpGet_present hs ha hnpa, res_bind_ok]
      simp [as_timedelta, htpa]
    have h2 : get_timedelta tp p sect (opt ++ cl ".period") (.py (tdOpt (some na))) =
        .ok (some na) := by
      simp only [get_timedelta, pGet,
        cpGet_absent_py hs hb false (tdOpt (some na)), res_bind_ok]
      rfl
    obtain ⟨h3, h4, h5⟩ := haux r
    simp only [get_rate, hs, h1, h2, h3, h4, h5, res_bind_ok]
    rfl
  · intro r ha hb
    have h1 : get_timedelta tp p sect opt (.py (.timedelta r.period)) =
        .ok (some r.period) := by
      simp only [get_timedelta, pGet,
        cpGet_absent_py hs ha false (PyVal.timedelta r.period), res_bind_ok]
      rfl
    have h2 : get_timedelta tp p sect (opt ++ cl ".period")
        (.py (tdOpt (some r.period))) = .ok (some r.period) := by
      simp only [get_timedelta, pGet,
        cpGet_absent_py hs hb false (tdOpt (some r.period)), res_bind_ok]
      rfl
    obtain ⟨h3, h4, h5⟩ := haux r
    simp only [get_rate, hs, h1, h2, h3, h4, h5, res_bind_ok]
    rfl
  · intro ha hb
    have h1 : get_timedelta tp p sect opt (.py .none) = .ok Option.none := by
      simp only [get_timedelta, pGet, cpGet_absent_py hs ha false PyVal.none,
        res_bind_ok]
      rfl
    have h2 : get_timedelta tp p sect (opt ++ cl ".period")
        (.py (tdOpt Option.none)) = .ok Option.none := by
      simp only [get_timedelta, pGet,
        cpGet_absent_py hs hb false (tdOpt Option.none), res_bind_ok]
      rfl
    simp only [get_rate, hs, h1, h2, res_bind_ok]
    rfl
  · intro k ha hb
    have h1 : get_timedelta tp p sect opt (.py (.int k)) = .ok (some k) := by
      simp only [get_timedelta, pGet, cpGet_absent_py hs ha false (PyVal.int k),
        res_bind_ok]
      rfl
    have h2 : get_timedelta tp p sect (opt ++ cl ".period") (.py (tdOpt (some k))) =
        .ok (some k) := by
      simp only [get_timedelta, pGet,
        cpGet_absent_py hs hb false (tdOpt (some k)), res_bind_ok]
      rfl
    obtain ⟨h3, h4, h5⟩ := hauxd
    simp only [get_rate, hs, h1, h2, h3, h4, h5, res_bind_ok]
    rfl

/-- Witness for `c4_get_rate_period`: `rate = 60` with a `Rate` fallback
keeps the stored period and the fallback's other fields. -/
theorem c4_get_rate_period_witness :
    get_rate tpC4 c4Par (cl "section") (cl "rate") (.rate ⟨99, true, 10, true⟩) =
      .ok (some ⟨60, true, 10, true⟩) :=
  (c4_get_rate_period tpC4 c4Par (cl "section") (cl "rate") [(cl "rate", cl "60")]
    (by decide) (by decide) (by decide) (by decide)).2.1 (cl "60") 60
    ⟨99, true, 10, true⟩ (by decide) (by decide) (by decide) (by decide)

/-- C7 counterexample: `_get_values` computes the merged key with
`key.replace(prefix, "")`, which removes every occurrence of the prefix
substring — `b.b.k1` under mixin prefix `b.` becomes `k1`, not the
leading-strip `b.k1` the claim states. -/
theorem c7_counterexample :
    getValuesP c7Par (cl "section") (cl "b.") = [(cl "k1", cl "v")] ∧
    getValuesP c7Par (cl "section") (cl "b.") ≠ [(cl "b.k1", cl "v")] := by
  refine ⟨by decide, by decide⟩

theorem dictUpdate_mem {d : Assoc} {k v : Str} {e : Str × Str}
    (he : e ∈ dictUpdate d k v) : e ∈ d ∨ e = (k, v) := by
  rw [dictUpdate] at he
  by_cases h : (lookupA d k).isSome = true
  · rw [if_pos h] at he
    obtain ⟨kv, hkv, hfe⟩ := List.mem_map.mp he
    by_cases hk : kv.1 = k
    · rw [if_pos hk] at hfe
      exact Or.inr hfe.symm
    · rw [if_neg hk] at hfe
      exact Or.inl (hfe ▸ hkv)
  · rw [if_neg h] at he
    rcases List.mem_append.mp he with h1 | h2
    · exact Or.inl h1
    · exact Or.inr (List.mem_singleton.mp h2)

theorem lookupA_dictUpdate_isSome {d : Assoc} {k v x : Str}
    (h : (lookupA d x).isSome = true) :
    (lookupA (dictUpdate d k v) x).isSome = true := by
  by_cases hk : k = x
  · subst hk
    rw [lookupA_dictUpdate_self]
    rfl
  · rwa [lookupA_dictUpdate_ne d k v x hk]

theorem gvStep_fold_mem (par : Parser) (sectName pfx : Str) :
    ∀ (keys : List Str) (acc : Assoc) (e : Str × Str),
      e ∈ keys.foldl (gvStep par sectName pfx) acc →
      e ∈ acc ∨ ∃ key, key ∈ keys ∧ isPfx pfx key = true ∧
        e.1 = replaceList key pfx [] ∧ e.2 = proxyGetRaw par sectName key
  | [], acc, e, he => Or.inl he
  | key :: keys, acc, e, he => by
    rw [List.foldl_cons] at he
    rcases gvStep_fold_mem par sectName pfx keys (gvStep par sectName pfx acc key) e he
      with h1 | ⟨key2, hk2, h2⟩
    · rw [gvStep] at h1
      by_cases hp : isPfx pfx key = true
      · rw [if_pos hp] at h1
        rcases dictUpdate_mem h1 with h3 | h3
        · exact Or.inl h3
        · exact Or.inr ⟨key, by simp, hp, by rw [h3], by rw [h3]⟩
      · rw [if_neg hp] at h1
        exact Or.inl h1
    · exact Or.inr ⟨key2, by simp [hk2], h2⟩

theorem gvStep_fold_isSome (par : Parser) (sectName pfx : Str) :
    ∀ (keys : List Str) (acc : Assoc) (x : Str),
      (lookupA acc x).isSome = true →
      (lookupA (keys.foldl (gvStep par sectName pfx) acc) x).isSome = true
  | [], _, _, h => h
  | key :: keys, acc, x, h => by
    rw [List.foldl_cons]
    refine gvStep_fold_isSome par sectName pfx keys _ x ?_
    rw [gvStep]
    by_cases hp : isPfx pfx key = true
    · rw [if_pos hp]
      exact lookupA_dictUpdate_isSome h
    · rwa [if_neg hp]

theorem gvStep_fold_complete (par : Parser) (sectName pfx : Str) :
    ∀ (keys : List Str) (acc : Assoc) (key : Str), key ∈ keys →
      isPfx pfx key = true →
      (lookupA (keys.foldl (gvStep par sectName pfx) acc)
        (replaceList key pfx [])).isSome = true
  | [], _, _, hmem, _ => absurd hmem (List.not_mem_nil _)
  | key2 :: keys, acc, key, hmem, hp => by
    rw [List.foldl_cons]
    rcases List.mem_cons.mp hmem with h1 | h2
    · subst h1
      refine gvStep_fold_isSome par sectName pfx keys _ _ ?_
      rw [gvStep, if_pos hp, lookupA_dictUpdate_self]
      rfl
    · exact gvStep_fold_complete par sectName pfx keys _ key h2 hp

theorem pSet_sectView {cfg : Parser} {csect : Str} {csd : Assoc}
    (hds : csect ≠ cl "DEFAULT") (hfs : findSect cfg.sections csect = some csd)
    (key val : Str) :
    findSect (pSet cfg csect key val).sections csect =
      some (dictUpdate csd (toLowerL key) val) := by
  simp only [pSet, if_neg hds]
  exact findSect_pSet_self cfg.sections csect csd
    (fun sd2 => dictUpdate sd2 (toLowerL key) val) hfs

/-- `proxy.update(vals)` on the private section is the ordered fold of
dict updates over the section table. -/
theorem updAll_sectView : ∀ (vals : Assoc) (cfg : Parser) (csect : Str) (csd : Assoc),
    csect ≠ cl "DEFAULT" → findSect cfg.sections csect = some csd →
    findSect (updAll cfg csect vals).sections csect =
      some (vals.foldl (fun d kv => dictUpdate d (toLowerL kv.1) kv.2) csd)
  | [], cfg, csect, csd, _, hfs => hfs
  | kv :: vals, cfg, csect, csd, hds, hfs => by
    rw [updAll, List.foldl_cons, List.foldl_cons]
    exact updAll_sectView vals (pSet cfg csect kv.1 kv.2) csect
      (dictUpdate csd (toLowerL kv.1) kv.2) hds (pSet_sectView hds hfs kv.1 kv.2)

/-- Looking up after a fold of dict updates: the last written value for
the key wins (first match in the reversed list), else the prior table. -/
theorem foldl_dictUpdate_lookup : ∀ (vals : Assoc) (d : Assoc) (k : Str),
    (∀ kv ∈ vals, toLowerL kv.1 = kv.1) →
    lookupA (vals.foldl (fun d kv => dictUpdate d (toLowerL kv.1) kv.2) d) k =
      match lookupA vals.reverse k with
      | some v => some v
      | Option.none => lookupA d k
  | [], d, k, _ => rfl
  | kv :: vals, d, k, hlc => by
    rw [List.foldl_cons, List.reverse_cons, lookupA_append]
    have hkv : toLowerL kv.1 = kv.1 := hlc kv (by simp)
    rw [foldl_dictUpdate_lookup vals _ k (fun x hx => hlc x (by simp [hx]))]
    cases hrev : lookupA vals.reverse k with
    | some v => rfl
    | none =>
      rw [hkv]
      by_cases hk : kv.1 = k
      · subst hk
        rw [lookupA_dictUpdate_self]
        simp [lookupA]
      · rw [lookupA_dictUpdate_ne d kv.1 kv.2 k hk]
        simp [lookupA, hk]

/-- C7 (amended): `_get_values` collects exactly the parent keys starting
with the mixin prefix, keyed by `key.replace(prefix, "")` — every
occurrence of the prefix substring removed, not only the leading one —
with the raw parent value (soundness and completeness); and when two
value sets are merged in sequence by `proxy.update`, the later one wins
on key collision, both beating the layers already in the section. -/
theorem c7_mixin_merge :
    (∀ (par : Parser) (sectName pfx : Str) (e : Str × Str),
      e ∈ getValuesP par sectName pfx →
      ∃ key, key ∈ optionsOf par sectName ∧ isPfx pfx key = true ∧
        e.1 = replaceList key pfx [] ∧ e.2 = proxyGetRaw par sectName key) ∧
    (∀ (par : Parser) (sectName pfx key : Str),
      key ∈ optionsOf par sectName → isPfx pfx key = true →
      (lookupA (getValuesP par sectName pfx) (replaceList key pfx [])).isSome =
        true) ∧
    (∀ (cfg : Parser) (csect : Str) (csd : Assoc) (v1 v2 : Assoc) (k : Str),
      csect ≠ cl "DEFAULT" → findSect cfg.sections csect = some csd →
      (∀ kv ∈ v1, toLowerL kv.1 = kv.1) → (∀ kv ∈ v2, toLowerL kv.1 = kv.1) →
      lookupA (sectView (updAll (updAll cfg csect v1) csect v2) csect) k =
        match lookupA v2.reverse k with
        | some v => some v
        | Option.none =>
          match lookupA v1.reverse k with
          | some v => some v
          | Option.none => lookupA csd k) := by
  refine ⟨?_, ?_, ?_⟩
  · intro par sectName pfx e he
    rcases gvStep_fold_mem par sectName pfx (optionsOf par sectName) [] e he
      with h1 | h2
    · exact absurd h1 (List.not_mem_nil e)
    · exact h2
  · intro par sectName pfx key hmem hp
    exact gvStep_fold_complete par sectName pfx (optionsOf par sectName) [] key hmem hp
  · intro cfg csect csd v1 v2 k hds hfs hlc1 hlc2
    have h1 := updAll_sectView v1 cfg csect csd hds hfs
    have h2 := updAll_sectView v2 (updAll cfg csect v1) csect _ hds h1
    rw [sectView, h2]
    show lookupA (v2.foldl _ _) k = _
    rw [foldl_dictUpdate_lookup v2 _ k hlc2, foldl_dictUpdate_lookup v1 csd k hlc1]

/-- Witness for `c7_mixin_merge`: the merged key of `b.b.k1` is present,
and a later mixin's value wins a collision. -/
theorem c7_mixin_merge_witness :
    (lookupA (getValuesP c7Par (cl "section") (cl "b."))
      (replaceList (cl "b.b.k1") (cl "b.") [])).isSome = true ∧
    lookupA (sectView (updAll (updAll (⟨[], [(cl "s", [])]⟩ : Parser) (cl "s")
      [(cl "k", cl "first")]) (cl "s") [(cl "k", cl "second")]) (cl "s")) (cl "k") =
      some (cl "second") := by
  have H := c7_mixin_merge
  refine ⟨H.2.1 c7Par (cl "section") (cl "b.") (cl "b.b.k1") (by decide) (by decide), ?_⟩
  rw [H.2.2 (⟨[], [(cl "s", [])]⟩ : Parser) (cl "s") [] [(cl "k", cl "first")]
    [(cl "k", cl "second")] (cl "k") (by decide) (by decide) (by decide) (by decide)]
  decide

/-! ## C9: component synthesis never mutates the parent store -/
theorem foldl_fst_eq {α β γ : Type} (step : (α × β) → γ → (α × β))
    (h : ∀ pc k, (step pc k).1 = pc.1) : ∀ (l : List γ) (init : α × β),
    (l.foldl step init).1 = init.1
  | [], _ => rfl
  | k :: t, init => by
    rw [List.foldl_cons, foldl_fst_eq step h t (step init k), h]

theorem copyStep_fst (parentSect dotPfx : Str) :
    ∀ (pc : Parser × Parser) (key : Str),
      (copyStep parentSect dotPfx pc key).1 = pc.1 := by
  intro pc key
  rw [copyStep]
  by_cases h : (!(isPfx dotPfx key)) = true
  · rw [if_pos h]
  · rw [if_neg h]

theorem mixinStep_fst (parentSect csect : Str) :
    ∀ (pc : Parser × Parser) (m : Str), (mixinStep parentSect csect pc m).1 = pc.1 :=
  fun _ _ => rfl

/-- `_create_proxy` returns the parent it was given: all writes go to the
freshly created private parser. -/
theorem createProxy_parent (pfx name parentSect : Str) (parent : Parser)
    (out : Parser × Parser) (h : createProxy pfx name parentSect parent = .ok out) :
    out.1 = parent := by
  unfold createProxy at h
  cases hfs : findSect parent.sections parentSect with
  | none =>
    rw [hfs] at h
    exact Res.noConfusion h
  | some sd =>
    rw [hfs] at h
    dsimp only at h
    have hA : ((optionsOf parent parentSect).foldl
        (copyStep parentSect (pfx ++ ['.']))
        (parent, (⟨[], [(pfx ++ '.' :: name, [])]⟩ : Parser))).1 = parent :=
      foldl_fst_eq _ (copyStep_fst parentSect (pfx ++ ['.'])) _ _
    rw [hA] at h
    cases hm1 : get_list parent parentSect (pfx ++ cl ".*.mixin") Option.none
        (.py .none) with
    | err e =>
      rw [hm1] at h
      exact Res.noConfusion h
    | ok m1 =>
      rw [hm1] at h
      simp only [res_bind_ok] at h
      cases hm2 : get_list parent parentSect (pfx ++ cl ".default.mixin") Option.none
          (.py (.list m1)) with
      | err e =>
        rw [hm2] at h
        exact Res.noConfusion h
      | ok m2 =>
        rw [hm2] at h
        simp only [res_bind_ok] at h
        cases hm3 : get_list parent parentSect (pfx ++ '.' :: name ++ cl ".mixin")
            Option.none (.py (.list m2)) with
        | err e =>
          rw [hm3] at h
          exact Res.noConfusion h
        | ok m3 =>
          rw [hm3] at h
          simp only [res_bind_ok] at h
          have hout := Res.ok.inj h
          rw [← hout]
          exact foldl_fst_eq _ (mixinStep_fst parentSect (pfx ++ '.' :: name)) m3 _

theorem foldlM_snd
    (step : (List (Str × Parser) × Parser) → Str → Res (List (Str × Parser) × Parser))
    (hstep : ∀ st name out2, step st name = .ok out2 → out2.2 = st.2) :
    ∀ (names : List Str) (acc out : List (Str × Parser) × Parser),
      List.foldlM step acc names = .ok out → out.2 = acc.2
  | [], acc, out, h => by
    rw [List.foldlM_nil] at h
    rw [← Res.ok.inj h]
  | name :: names, acc, out, h => by
    rw [List.foldlM_cons] at h
    cases hs : step acc name with
    | err e =>
      rw [hs] at h
      exact Res.noConfusion h
    | ok st2 =>
      rw [hs] at h
      rw [foldlM_snd step hstep names st2 out h]
      exact hstep acc name st2 hs

/-- C9: the parent store is read, never written, during component
synthesis.  `_create_proxy` returns the parent parser unchanged, and so
does a whole `get_components` call over any list of names — every write
in the model targets the per-component private parser. -/
theorem c9_parent_unchanged :
    (∀ (pfx name parentSect : Str) (parent : Parser) (out : Parser × Parser),
      createProxy pfx name parentSect parent = .ok out → out.1 = parent) ∧
    (∀ (pfx : Str) (p : Parser) (sectName opt : Str)
      (out : List (Str × Parser) × Parser),
      get_components pfx p sectName opt = .ok out → out.2 = p) := by
  refine ⟨createProxy_parent, ?_⟩
  intro pfx p sectName opt out h
  unfold get_components at h
  cases hn : get_list p sectName opt Option.none (.py .none) with
  | err e =>
    rw [hn] at h
    exact Res.noConfusion h
  | ok names =>
    rw [hn] at h
    exact foldlM_snd _
      (by
        intro st name out2 h2
        cases hcp : createProxy pfx name sectName st.2 with
        | err e =>
          rw [hcp] at h2
          exact Res.noConfusion h2
        | ok pc =>
          rw [hcp] at h2
          rw [← Res.ok.inj h2]
          exact createProxy_parent pfx name sectName st.2 pc hcp)
      names ([], p) out h

/-- Witness for `c9_parent_unchanged`: the concrete synthesis of
component `a` hands back its parent store unchanged. -/
theorem c9_parent_unchanged_witness : c9Out.1 = compParMixinOnly :=
  c9_parent_unchanged.1 (cl "component") (cl "a") (cl "section") compParMixinOnly
    c9Out (by decide)

/-- Witness for the hypotheses of `c6_rate_nexttime`: both branch
characterizations applied at concrete rates. -/
theorem c6_rate_nexttime_witness :
    nexttime ⟨60, false, 0, false⟩ 7 = 60 ∧
    nexttime ⟨60, true, 10, false⟩ 5 = 60 - ((5 : Int) - 10) % 60 :=
  ⟨c6_rate_nexttime.1 ⟨60, false, 0, false⟩ 7 rfl,
   c6_rate_nexttime.2.1 ⟨60, true, 10, false⟩ 5 rfl (by decide)⟩
